import Mathlib

/-!
# SimpleVector: a shallow embedding of `simple_vector.h`

The container of `src/simple-vector/simple_vector.h` is embedded as a record of
its three data members (`items_`, `size_`, `capacity_`).  Every member function
becomes a function on that record.  A run that leaves defined behaviour is a
value of `Fault`:

* `Fault.outOfRange`   : the `std::out_of_range` exception thrown by `At`,
* `Fault.assertFailed` : an `assert(...)` of the source evaluated to false,
* `Fault.wildAccess`   : a read or write outside the region owned by an
  `ArrayPtr` (undefined behaviour in C++).

Conventions of the embedding

* `size_t` is `Nat` reduced modulo `2 ^ 64` at every arithmetic operation of
  the source (`size_ + 1`, `++size_`, `--size_`, `capacity_ * 2`, `size_ - 1`).
* An iterator (`Type*`) is the offset of the pointer from `items_.Get()`.
* `std::move` of an element is a copy, as it is for `int` and every trivially
  copyable element type.
* A parameter of type `const Type&` or `Type&&` that the function reads after
  it has written to the buffer is a `Ref`: either an object outside the buffer
  or a slot of the buffer, read at the point where the source reads it.
* `Type{}` is `default` of `Inhabited`.
-/

namespace SV

/-- Ways in which a member function can leave defined behaviour. -/
inductive Fault where
  | outOfRange
  | assertFailed
  | wildAccess
  deriving DecidableEq

/-- Modulus of `size_t` arithmetic (64-bit targets). -/
def SIZE_MOD : Nat := 2 ^ 64

/-- Reduction of an arithmetic result to `size_t`. -/
def wrap (n : Nat) : Nat := n % SIZE_MOD

/-- Modelled from the spec: `array_ptr.h` is missing from the sources.  The spec
(4.1, Owned Buffer) says that `allocate(n)` obtains storage for exactly `n`
elements and that the content of a slot is unspecified until it is written.
`junk i` is the unspecified content found in slot `i` of a fresh region. -/
class RawStorage (α : Type) where
  junk : Nat → α

/-- Modelled from the spec: `array_ptr.h` is missing from the sources.  The spec
(4.1, Owned Buffer) describes an exclusively owned contiguous region of a fixed
element count with unchecked indexed access; `cells` is that region, and its
length is the number of allocated slots. -/
structure ArrayPtr (α : Type) where
  cells : List α
  deriving DecidableEq

namespace ArrayPtr

variable {α : Type}

/-- Modelled from the spec: default-constructed buffer, owning no storage. -/
def null : ArrayPtr α := ⟨[]⟩

/-- Modelled from the spec: `ArrayPtr<Type>(n)`, storage for exactly `n`
elements with unspecified content. -/
def alloc [RawStorage α] (n : Nat) : ArrayPtr α :=
  ⟨(List.range n).map RawStorage.junk⟩

/-- Modelled from the spec: unchecked read `p[i]` / `*(p.Get() + i)`; outside
the owned region the behaviour is undefined. -/
def read (p : ArrayPtr α) (i : Nat) : Except Fault α :=
  match p.cells[i]? with
  | some x => .ok x
  | none => .error .wildAccess

/-- Modelled from the spec: unchecked write `p[i] = v` / `*(p.Get() + i) = v`;
outside the owned region the behaviour is undefined. -/
def write (p : ArrayPtr α) (i : Nat) (v : α) : Except Fault (ArrayPtr α) :=
  if i < p.cells.length then .ok ⟨p.cells.set i v⟩ else .error .wildAccess

/-- Modelled from the spec: move assignment `p = std::move(q)` of buffers
transfers ownership and leaves the source referencing no storage; the pair is
`(p, q)` after the assignment.  The storage `p` owned before is released. -/
def moveAssign (_p q : ArrayPtr α) : ArrayPtr α × ArrayPtr α := (q, null)

end ArrayPtr

/-- What a parameter of type `const Type&` or `Type&&` refers to: an object
outside the buffer of the array (`ext v`, holding the value `v`), or slot `i` of
the buffer the array owns when the call starts (`slot i`), as in
`a.PushBack(a[0])`. -/
inductive Ref (α : Type) where
  | ext (v : α)
  | slot (i : Nat)
  deriving DecidableEq

namespace Ref

variable {α : Type}

/-- Reading through the reference while `buf`, the buffer owned when the call
started, is still owned: a slot is read with its present content. -/
def read (r : Ref α) (buf : ArrayPtr α) : Except Fault α :=
  match r with
  | ext v => .ok v
  | slot i => buf.read i

/-- Reading through the reference after the buffer owned when the call started
has been released: a reference into that buffer dangles. -/
def readReleased (r : Ref α) : Except Fault α :=
  match r with
  | ext v => .ok v
  | slot _ => .error .wildAccess

end Ref

/-! ## The `<algorithm>` loops used by the container

Each loop is written with the element accesses the library performs, in the
order it performs them, so that an access outside a buffer is a fault. -/

section Algorithms

variable {α : Type}

/-- Loop of `std::copy` / `std::move` from `[first, first + n)` of `src` to
`dst` starting at `d`, the two buffers being distinct. -/
def copyLoop (src : ArrayPtr α) (first : Nat) (dst : ArrayPtr α) (d : Nat) :
    Nat → Except Fault (ArrayPtr α)
  | 0 => .ok dst
  | n + 1 => do
    let x ← src.read first
    let dst ← dst.write d x
    copyLoop src (first + 1) dst (d + 1) n

/-- The call `std::copy(src + first, src + last, dst + d)` (also `std::move`
with the same arguments) between distinct buffers.  A range whose end precedes
its start is never exhausted by the loop: undefined behaviour. -/
def stdCopy (src : ArrayPtr α) (first last : Nat) (dst : ArrayPtr α) (d : Nat) :
    Except Fault (ArrayPtr α) :=
  if last < first then .error .wildAccess
  else copyLoop src first dst d (last - first)

/-- Loop of `std::move(first, last, d)` inside one buffer, front to back. -/
def moveLoop (buf : ArrayPtr α) (first d : Nat) : Nat → Except Fault (ArrayPtr α)
  | 0 => .ok buf
  | n + 1 => do
    let x ← buf.read first
    let buf ← buf.write d x
    moveLoop buf (first + 1) (d + 1) n

/-- The call `std::move(buf + first, buf + last, buf + d)` inside one buffer. -/
def stdMoveWithin (buf : ArrayPtr α) (first last d : Nat) : Except Fault (ArrayPtr α) :=
  if last < first then .error .wildAccess
  else moveLoop buf first d (last - first)

/-- Loop of `std::copy_backward` / `std::move_backward` inside one buffer:
`n` more elements remain, the next one read is `buf[first + n - 1]` and it is
stored just below `dLast`. -/
def backwardLoop (buf : ArrayPtr α) (first : Nat) : Nat → Nat → Except Fault (ArrayPtr α)
  | 0, _ => .ok buf
  | n + 1, dLast =>
    if dLast = 0 then .error .wildAccess
    else do
      let x ← buf.read (first + n)
      let buf ← buf.write (dLast - 1) x
      backwardLoop buf first n (dLast - 1)

/-- The call `std::copy_backward(buf + first, buf + last, buf + dLast)` (also
`std::move_backward`) inside one buffer. -/
def stdCopyBackward (buf : ArrayPtr α) (first last dLast : Nat) :
    Except Fault (ArrayPtr α) :=
  if last < first then .error .wildAccess
  else backwardLoop buf first (last - first) dLast

/-- Loop of `std::fill(first, last, v)` and of the
`std::for_each(first, last, [](auto& x) { x = Type{}; })` calls. -/
def fillLoop (buf : ArrayPtr α) (first : Nat) (v : α) : Nat → Except Fault (ArrayPtr α)
  | 0 => .ok buf
  | n + 1 => do
    let buf ← buf.write first v
    fillLoop buf (first + 1) v n

/-- The call `std::fill(buf + first, buf + last, v)`. -/
def stdFill (buf : ArrayPtr α) (first last : Nat) (v : α) : Except Fault (ArrayPtr α) :=
  if last < first then .error .wildAccess
  else fillLoop buf first v (last - first)

/-- Loop of `std::lexicographical_compare(a + i, a + i + n1, b + j, b + j + n2)`
with the element comparison `lt`. -/
def lexLoop (lt : α → α → Bool) (a : ArrayPtr α) (i : Nat) (b : ArrayPtr α) (j : Nat) :
    Nat → Nat → Except Fault Bool
  | 0, n2 => .ok (decide (n2 ≠ 0))
  | _ + 1, 0 => .ok false
  | n1 + 1, n2 + 1 => do
    let x ← a.read i
    let y ← b.read j
    if lt x y then pure true
    else if lt y x then pure false
    else lexLoop lt a (i + 1) b (j + 1) n1 n2

end Algorithms

/-- The class `ReserveProxyObj`: the capacity a constructor is asked for. -/
structure ReserveProxyObj where
  new_capacity : Nat
  deriving DecidableEq

/-- `size_t ReserveProxyObj::GetNewCapacity()`. -/
def ReserveProxyObj.GetNewCapacity (r : ReserveProxyObj) : Nat := r.new_capacity

/-- `ReserveProxyObj Reserve(size_t capacity_to_reserve)`. -/
def Reserve (capacity_to_reserve : Nat) : ReserveProxyObj := ⟨capacity_to_reserve⟩

/-- The class template `SimpleVector<Type>`: its three data members. -/
structure SimpleVector (α : Type) where
  items_ : ArrayPtr α
  size_ : Nat
  capacity_ : Nat
  deriving DecidableEq

namespace SimpleVector

variable {α : Type}

/-- `SimpleVector() noexcept = default`. -/
def empty : SimpleVector α := ⟨ArrayPtr.null, 0, 0⟩

/-- `void swap(SimpleVector& other) noexcept`: the pair is `(*this, other)`
after the call. -/
def swap (self other : SimpleVector α) : SimpleVector α × SimpleVector α :=
  (⟨other.items_, other.size_, other.capacity_⟩, ⟨self.items_, self.size_, self.capacity_⟩)

/-- `size_t GetSize() const noexcept`. -/
def GetSize (a : SimpleVector α) : Nat := a.size_

/-- `size_t GetCapacity() const noexcept`. -/
def GetCapacity (a : SimpleVector α) : Nat := a.capacity_

/-- `bool IsEmpty() const noexcept`. -/
def IsEmpty (a : SimpleVector α) : Bool := a.size_ == 0

/-- `operator[](size_t index)`: unchecked element access. -/
def index (a : SimpleVector α) (i : Nat) : Except Fault α := a.items_.read i

/-- `Type& At(size_t index)`: the element referred to and the array after the
call. -/
def At (a : SimpleVector α) (i : Nat) : Except Fault (α × SimpleVector α) :=
  if !(decide (i < a.size_)) then .error .outOfRange
  else do
    let x ← a.index i
    pure (x, a)

/-- `const Type& At(size_t index) const`. -/
def AtConst (a : SimpleVector α) (i : Nat) : Except Fault α :=
  if !(decide (i < a.size_)) then .error .outOfRange
  else a.index i

/-- `SimpleVector(size_t size, const Type& value)`. -/
def filled [RawStorage α] (size : Nat) (value : α) : Except Fault (SimpleVector α) := do
  let new_vector : ArrayPtr α := ArrayPtr.alloc size
  -- items_.swap(new_vector)
  let items := new_vector
  let capacity := size
  let size := capacity
  -- std::fill(begin(), end(), value)
  let items ← stdFill items 0 size value
  pure ⟨items, size, capacity⟩

/-- `explicit SimpleVector(size_t size)`. -/
def sized [RawStorage α] [Inhabited α] (size : Nat) : Except Fault (SimpleVector α) := do
  let new_vector ← filled size (default : α)
  pure (swap empty new_vector).1

/-- `SimpleVector(const SimpleVector& other)`. -/
def copy [RawStorage α] [Inhabited α] (other : SimpleVector α) :
    Except Fault (SimpleVector α) := do
  let new_vector ← sized (α := α) other.GetSize
  let new_vector := { new_vector with capacity_ := other.capacity_ }
  let items ← stdCopy other.items_ 0 other.size_ new_vector.items_ 0
  let new_vector := { new_vector with items_ := items }
  pure (swap empty new_vector).1

/-- `SimpleVector(ReserveProxyObj r)`. -/
def reserved [RawStorage α] (r : ReserveProxyObj) : SimpleVector α :=
  let capacity_to_reserve := r.GetNewCapacity
  let new_vector : ArrayPtr α := ArrayPtr.alloc capacity_to_reserve
  -- items_.swap(new_vector)
  ⟨new_vector, 0, capacity_to_reserve⟩

/-- `SimpleVector(std::initializer_list<Type> init)`; the elements of the list
are read from the array behind `init.begin()`. -/
def initList [RawStorage α] [Inhabited α] (init : List α) : Except Fault (SimpleVector α) := do
  let new_vector ← sized (α := α) init.length
  let items ← stdCopy ⟨init⟩ 0 init.length new_vector.items_ 0
  let new_vector := { new_vector with items_ := items }
  pure (swap empty new_vector).1

/-- `SimpleVector(SimpleVector&& other)`: the pair is `(*this, other)` after the
constructor has run. -/
def moveConstruct (other : SimpleVector α) : SimpleVector α × SimpleVector α :=
  let (items, otherItems) := ArrayPtr.moveAssign ArrayPtr.null other.items_
  -- size_ = std::exchange(other.size_, 0); capacity_ = std::exchange(other.capacity_, 0);
  (⟨items, other.size_, other.capacity_⟩, ⟨otherItems, 0, 0⟩)

/-- `SimpleVector& operator=(SimpleVector&& rhs) = default` for `this != &rhs`:
member-wise move assignment; the pair is `(*this, rhs)` after the call.  A
`size_t` member is moved by copying it, the source member keeps its value. -/
def moveAssign (self rhs : SimpleVector α) : SimpleVector α × SimpleVector α :=
  let (items, rhsItems) := ArrayPtr.moveAssign self.items_ rhs.items_
  (⟨items, rhs.size_, rhs.capacity_⟩, ⟨rhsItems, rhs.size_, rhs.capacity_⟩)

/-- `SimpleVector& operator=(const SimpleVector& rhs)` for `this != &rhs`: the
array `*this` after the call.  The former content of `*this` ends in the
temporary `rhs_copy` and is destroyed with it. -/
def copyAssign [RawStorage α] [Inhabited α] (self rhs : SimpleVector α) :
    Except Fault (SimpleVector α) := do
  let rhs_copy ← copy rhs
  pure (swap self rhs_copy).1

/-- `SimpleVector& operator=(const SimpleVector& rhs)` for `this == &rhs`: the
identity check skips the body. -/
def copyAssignSelf (self : SimpleVector α) : SimpleVector α := self

/-- `void Resize(size_t new_size)`. -/
def Resize [RawStorage α] [Inhabited α] (a : SimpleVector α) (new_size : Nat) :
    Except Fault (SimpleVector α) :=
  if new_size < a.size_ then
    pure { a with size_ := new_size }
  else if new_size < a.capacity_ then do
    let items ← stdFill a.items_ a.size_ new_size (default : α)
    pure { a with items_ := items, size_ := new_size }
  else do
    let new_vector : ArrayPtr α := ArrayPtr.alloc new_size
    let new_vector ← stdCopy a.items_ 0 a.size_ new_vector 0
    let new_vector ← stdFill new_vector a.size_ new_size (default : α)
    pure ⟨new_vector, new_size, new_size⟩

/-- `void Clear() noexcept`. -/
def Clear [RawStorage α] [Inhabited α] (a : SimpleVector α) : Except Fault (SimpleVector α) :=
  a.Resize 0

/-- `void Reserve(size_t new_capacity)`. -/
def Reserve [RawStorage α] [Inhabited α] (a : SimpleVector α) (new_capacity : Nat) :
    Except Fault (SimpleVector α) :=
  if a.capacity_ < new_capacity then do
    let new_vector ← sized (α := α) new_capacity
    let new_vector := { new_vector with size_ := a.size_ }
    let items ← stdCopy a.items_ 0 a.size_ new_vector.items_ 0
    let new_vector := { new_vector with items_ := items }
    pure (swap a new_vector).1
  else pure a

/-- `void PopBack() noexcept`. -/
def PopBack [RawStorage α] [Inhabited α] (a : SimpleVector α) : Except Fault (SimpleVector α) :=
  a.Resize (wrap (a.size_ + SIZE_MOD - 1))

/-- Whether `Resize(new_size)` takes its third branch, the one that moves the
elements to a new buffer and, when `new_vector` goes out of scope after the
swap, releases the buffer owned before the call. -/
def ResizeReleases (a : SimpleVector α) (new_size : Nat) : Bool :=
  !(decide (new_size < a.size_)) && !(decide (new_size < a.capacity_))

/-- `void PushBack(const Type& item)`: `item` is read in the second statement,
after `Resize` has returned. -/
def PushBack [RawStorage α] [Inhabited α] (a : SimpleVector α) (item : Ref α) :
    Except Fault (SimpleVector α) := do
  let released := a.ResizeReleases (wrap (a.size_ + 1))
  let a ← a.Resize (wrap (a.size_ + 1))
  let x ← (if released then item.readReleased else item.read a.items_)
  let items ← a.items_.write (wrap (a.size_ + SIZE_MOD - 1)) x
  pure { a with items_ := items }

/-- `void PushBack(Type&& item)`.  In both branches `item` is read before any
slot of the buffer is overwritten and before the buffer is released, so the
value it holds when the call starts is the value read. -/
def PushBackMove [RawStorage α] (a : SimpleVector α) (item : α) :
    Except Fault (SimpleVector α) :=
  if a.size_ ≠ a.capacity_ then do
    let items ← a.items_.write a.size_ item
    pure { a with items_ := items, size_ := wrap (a.size_ + 1) }
  else do
    let new_capacity := if a.capacity_ = 0 then 1 else wrap (a.capacity_ * 2)
    let new_vector : ArrayPtr α := ArrayPtr.alloc new_capacity
    let new_vector ← stdCopy a.items_ 0 a.size_ new_vector 0
    let new_vector ← new_vector.write a.size_ item
    pure ⟨new_vector, wrap (a.size_ + 1), new_capacity⟩

/-- `Iterator Insert(ConstIterator position, const Type& value)`: the offset of
the returned iterator in the buffer owned after the call, and the array. -/
def Insert [RawStorage α] (a : SimpleVector α) (position : Nat) (value : Ref α) :
    Except Fault (Nat × SimpleVector α) :=
  if !(decide (position ≥ 0) && decide (position < a.size_)) then .error .assertFailed
  else if a.size_ ≠ a.capacity_ then do
    let items ← stdCopyBackward a.items_ position a.size_ (a.size_ + 1)
    -- `value` is read here, after the range was shifted
    let x ← value.read items
    let items ← items.write position x
    pure (position, { a with items_ := items, size_ := wrap (a.size_ + 1) })
  else do
    let new_capacity := if a.capacity_ = 0 then 1 else wrap (a.capacity_ * 2)
    let insert_pos := position
    let new_vector : ArrayPtr α := ArrayPtr.alloc new_capacity
    let new_vector ← stdCopy a.items_ 0 position new_vector 0
    -- `value` is read here, the buffer of the array still being the old one
    let x ← value.read a.items_
    let new_vector ← new_vector.write insert_pos x
    let new_vector ← stdCopy a.items_ position a.size_ new_vector (insert_pos + 1)
    pure (insert_pos, ⟨new_vector, wrap (a.size_ + 1), new_capacity⟩)

/-- `Iterator Insert(ConstIterator position, Type&& value)`: the offset of the
returned iterator in the buffer owned after the call, and the array. -/
def InsertMove [RawStorage α] (a : SimpleVector α) (position : Nat) (value : Ref α) :
    Except Fault (Nat × SimpleVector α) :=
  if a.size_ ≠ a.capacity_ then do
    let items ← stdCopyBackward a.items_ position a.size_ (a.size_ + 1)
    -- `value` is read here, after the range was shifted
    let x ← value.read items
    let items ← items.write position x
    pure (position, { a with items_ := items, size_ := wrap (a.size_ + 1) })
  else do
    let new_capacity := if a.capacity_ = 0 then 1 else wrap (a.capacity_ * 2)
    let insert_pos := position
    let new_vector : ArrayPtr α := ArrayPtr.alloc new_capacity
    let new_vector ← stdCopy a.items_ 0 position new_vector 0
    -- `value` is read here, the buffer of the array still being the old one
    let x ← value.read a.items_
    let new_vector ← new_vector.write insert_pos x
    let new_vector ← stdCopy a.items_ position a.size_ new_vector (insert_pos + 1)
    pure (insert_pos, ⟨new_vector, wrap (a.size_ + 1), new_capacity⟩)

/-- `Iterator Erase(ConstIterator position)`: the offset of the returned
iterator and the array after the call. -/
def Erase (a : SimpleVector α) (position : Nat) : Except Fault (Nat × SimpleVector α) :=
  if !(decide (position ≥ 0) && decide (position < a.size_)) then .error .assertFailed
  else do
    let items ← stdMoveWithin a.items_ (position + 1) a.size_ position
    pure (position, { a with items_ := items, size_ := wrap (a.size_ + SIZE_MOD - 1) })

/-- `operator<` of two arrays: `std::lexicographical_compare` over
`[cbegin(), cend())` of both. -/
def less (lt : α → α → Bool) (lhs rhs : SimpleVector α) : Except Fault Bool :=
  lexLoop lt lhs.items_ 0 rhs.items_ 0 lhs.size_ rhs.size_

/-- `operator==` of two arrays: `!(lhs < rhs) && !(rhs < lhs)`, the second
comparison evaluated only when the first yields `false`. -/
def equal (lt : α → α → Bool) (lhs rhs : SimpleVector α) : Except Fault Bool := do
  let l ← less lt lhs rhs
  if !l then do
    let r ← less lt rhs lhs
    pure (!r)
  else pure false

/-- `operator!=` of two arrays: `!(lhs == rhs)`. -/
def notEqual (lt : α → α → Bool) (lhs rhs : SimpleVector α) : Except Fault Bool := do
  let e ← equal lt lhs rhs
  pure (!e)

/-- `operator<=` of two arrays: `lhs == rhs || lhs < rhs`, the second comparison
evaluated only when the first yields `false`. -/
def lessEq (lt : α → α → Bool) (lhs rhs : SimpleVector α) : Except Fault Bool := do
  let e ← equal lt lhs rhs
  if e then pure true else less lt lhs rhs

/-- `operator>` of two arrays: `!(lhs <= rhs)`. -/
def greater (lt : α → α → Bool) (lhs rhs : SimpleVector α) : Except Fault Bool := do
  let le ← lessEq lt lhs rhs
  pure (!le)

/-- `operator>=` of two arrays: `!(lhs < rhs)`. -/
def greaterEq (lt : α → α → Bool) (lhs rhs : SimpleVector α) : Except Fault Bool := do
  let l ← less lt lhs rhs
  pure (!l)

/-- The live elements: the content of the slots `[0, size_)`, in index order. -/
def live (a : SimpleVector α) : List α := a.items_.cells.take a.size_

/-- Number of slots of the buffer the array owns. -/
def allocated (a : SimpleVector α) : Nat := a.items_.cells.length

/-- Data-model invariant of the spec: `size <= capacity`, and the buffer holds
(at least) `capacity` slots. -/
def Valid (a : SimpleVector α) : Prop :=
  a.size_ ≤ a.capacity_ ∧ a.capacity_ ≤ a.allocated

instance (a : SimpleVector α) : Decidable a.Valid := by
  unfold Valid; exact inferInstance

/-- The counters stay clear of `size_t` overflow.  No buffer of `2 ^ 63` or more
elements can be obtained on a 64-bit target, and `capacity_` is always the
element count of a buffer that was obtained, so every array a program can
build satisfies this. -/
def Bounded (a : SimpleVector α) : Prop := a.capacity_ * 2 < SIZE_MOD

instance (a : SimpleVector α) : Decidable a.Bounded := by
  unfold Bounded; exact inferInstance

/-- The argument `r` of a call on `a` designates a value: an object outside the
buffer, or a live element of `a`. -/
def Designates (a : SimpleVector α) (r : Ref α) : Prop :=
  match r with
  | .ext _ => True
  | .slot i => i < a.size_

instance (a : SimpleVector α) (r : Ref α) : Decidable (a.Designates r) := by
  unfold Designates; cases r <;> exact inferInstance

/-! ## Concrete arrays of `int` used by the examples -/

/-- Content of fresh storage in the examples: slot `i` of a new region holds
`-1 - i`, a value no example stores. -/
instance intStorage : RawStorage Int := ⟨fun i => -1 - (i : Int)⟩

/-- The array `{1, 2}`: size 2, capacity 2. -/
def ex12 : SimpleVector Int := ⟨⟨[1, 2]⟩, 2, 2⟩

/-- The array `{1, 2, 3, 4}`: size 4, capacity 4. -/
def ex1234 : SimpleVector Int := ⟨⟨[1, 2, 3, 4]⟩, 4, 4⟩

/-- The array `{1, 2}` with one spare slot: size 2, capacity 3; the spare slot
holds a stale `9`. -/
def ex12spare : SimpleVector Int := ⟨⟨[1, 2, 9]⟩, 2, 3⟩

/-- The array a program gets from `SimpleVector<int> a(Reserve(2)); a.PushBack(1);`:
size 1, capacity 2, the second slot still holding what the allocation left. -/
def exReserved : SimpleVector Int := ⟨⟨[1, -2]⟩, 1, 2⟩

/-- The copy of `exReserved` that the copy constructor builds: size 1, capacity
2, and a buffer of one slot. -/
def exCopied : SimpleVector Int := ⟨⟨[1]⟩, 1, 2⟩

/-! ## Arrays as objects in memory

The record `SimpleVector` carries the cells of its buffer.  To speak about two
arrays that could share a buffer, the constructors involved in copying are
also written over a free store in which a buffer is designated by a pointer. -/

/-- The free store: the regions obtained from `new[]` so far, in the order they
were obtained.  A pointer to a buffer is the index of its region; a released
region keeps its index, so no index ever designates two buffers. -/
structure Heap (α : Type) where
  regions : List (List α)
  deriving DecidableEq

/-- A `SimpleVector` object in memory: `items_` holds the pointer of its
`ArrayPtr` (`none` is the null pointer of an `ArrayPtr` without storage) in
place of the cells. -/
structure Located where
  items_ : Option Nat
  size_ : Nat
  capacity_ : Nat
  deriving DecidableEq

namespace Heap

/-- The buffer a pointer designates; a pointer to no region of the store cannot
be dereferenced. -/
def buffer (h : Heap α) : Option Nat → Except Fault (ArrayPtr α)
  | none => .ok ArrayPtr.null
  | some k =>
    match h.regions[k]? with
    | some cells => .ok ⟨cells⟩
    | none => .error .wildAccess

/-- Modelled from the spec: `ArrayPtr<Type>(n)` in memory.  `allocate(n)`
obtains storage for exactly `n` elements that no other live buffer aliases, and
a zero-count construction allocates nothing: the store after the allocation and
the pointer obtained. -/
def new [RawStorage α] (h : Heap α) (n : Nat) : Heap α × Option Nat :=
  if n = 0 then (h, none)
  else (⟨h.regions ++ [(ArrayPtr.alloc n : ArrayPtr α).cells]⟩, some h.regions.length)

/-- The accesses `f` made through the pointer `ptr`: they read and write the
buffer `ptr` designates, and what they leave in it is the new content of that
region.  No other region is written. -/
def update (h : Heap α) (ptr : Option Nat) (f : ArrayPtr α → Except Fault (ArrayPtr α)) :
    Except Fault (Heap α) := do
  let buf ← h.buffer ptr
  let buf ← f buf
  match ptr with
  | none => pure h
  | some k => pure ⟨h.regions.set k buf.cells⟩

/-- The array an object in memory holds: its counters and the cells of the
buffer its pointer designates. -/
def view (h : Heap α) (o : Located) : Except Fault (SimpleVector α) := do
  let buf ← h.buffer o.items_
  pure ⟨buf, o.size_, o.capacity_⟩

/-- Every buffer of the first store is a buffer of the second, with the same
cells. -/
def Keeps (h h' : Heap α) : Prop :=
  ∀ q buf, h.buffer q = .ok buf → h'.buffer q = .ok buf

end Heap

/-- `SimpleVector(size_t size, const Type& value)` in memory: the store after
the constructor has run and the object constructed. -/
def filledAt [RawStorage α] (h : Heap α) (size : Nat) (value : α) :
    Except Fault (Heap α × Located) := do
  let (h, new_vector) := h.new size
  -- items_.swap(new_vector)
  let items := new_vector
  let capacity := size
  let size := capacity
  -- std::fill(begin(), end(), value)
  let h ← h.update items (fun buf => stdFill buf 0 size value)
  pure (h, ⟨items, size, capacity⟩)

/-- `explicit SimpleVector(size_t size)` in memory. -/
def sizedAt [RawStorage α] [Inhabited α] (h : Heap α) (size : Nat) :
    Except Fault (Heap α × Located) :=
  -- SimpleVector new_vector(size, Type{}); swap(new_vector);
  filledAt h size (default : α)

/-- `SimpleVector(const SimpleVector& other)` in memory: the store after the
constructor has run and the object constructed; `other` is an object of the
store given. -/
def copyAt [RawStorage α] [Inhabited α] (h : Heap α) (other : Located) :
    Except Fault (Heap α × Located) := do
  let (h, new_vector) ← sizedAt (α := α) h other.size_
  let new_vector := { new_vector with capacity_ := other.capacity_ }
  -- std::copy(other.begin(), other.end(), new_vector.begin())
  let src ← h.buffer other.items_
  let h ← h.update new_vector.items_ (fun dst => stdCopy src 0 other.size_ dst 0)
  -- swap(new_vector)
  pure (h, new_vector)

/-- `SimpleVector& operator=(const SimpleVector& rhs)` in memory, for
`this != &rhs`: the store and the object `*this` after the call.  `*this` takes
the members of the temporary `rhs_copy` by `swap`; the buffer it owned before
goes with the temporary. -/
def copyAssignAt [RawStorage α] [Inhabited α] (h : Heap α) (_self rhs : Located) :
    Except Fault (Heap α × Located) := do
  let (h, rhs_copy) ← copyAt (α := α) h rhs
  pure (h, rhs_copy)

/-- The assignment `o[i] = v` through `operator[]` of the object `o`. -/
def assignAt (h : Heap α) (o : Located) (i : Nat) (v : α) : Except Fault (Heap α) :=
  h.update o.items_ (fun buf => buf.write i v)

/-- The program `SimpleVector b(a); b[i] = v;` run in a store that holds the
object `a`: the store after the two statements and the object `b`. -/
def copyThenOverwrite [RawStorage α] [Inhabited α] (h : Heap α) (a : Located) (i : Nat)
    (v : α) : Except Fault (Heap α × Located) := do
  let (h, b) ← copyAt (α := α) h a
  let h ← assignAt h b i v
  pure (h, b)

/-- A store with two regions: `{1, 2, 9}` and `{1, 2, 3, 4}`. -/
def exHeap : Heap Int := ⟨[[1, 2, 9], [1, 2, 3, 4]]⟩

/-- The object in `exHeap` that holds `{1, 2}` with capacity 3. -/
def exAt0 : Located := ⟨some 0, 2, 3⟩

/-- The object in `exHeap` that holds `{1, 2, 3, 4}`. -/
def exAt1 : Located := ⟨some 1, 4, 4⟩

/-- An empty array object: null pointer, size 0, capacity 0. -/
def exNull : Located := ⟨none, 0, 0⟩

/-- The comparison `std::lexicographical_compare` computes, written on the two
sequences of elements instead of the two buffers; `less_eq_lexLess` shows that
the loop of `operator<` returns this value. -/
def lexLess (lt : α → α → Bool) : List α → List α → Bool
  | [], ys => !ys.isEmpty
  | _ :: _, [] => false
  | x :: xs, y :: ys =>
    if lt x y then true else if lt y x then false else lexLess lt xs ys

/-- The `<` of `int`. -/
def intLess (x y : Int) : Bool := decide (x < y)

/-- The array `{1, 2, 3}`: size 3, capacity 3. -/
def ex123 : SimpleVector Int := ⟨⟨[1, 2, 3]⟩, 3, 3⟩

/-- The array `{1, 2, 4}`: size 3, capacity 3. -/
def ex124 : SimpleVector Int := ⟨⟨[1, 2, 4]⟩, 3, 3⟩

/-- The array `{2}`: size 1, capacity 1. -/
def ex2 : SimpleVector Int := ⟨⟨[2]⟩, 1, 1⟩

/-- The array `{1, 9, 9}`: size 3, capacity 3. -/
def ex199 : SimpleVector Int := ⟨⟨[1, 9, 9]⟩, 3, 3⟩

/-- The loop `for (...) a.PushBack(x);` over the values `xs`, for either
overload `push` of `PushBack`: the array after the loop and the number of calls
that changed the capacity, i.e. that moved the array to a new, larger buffer.
The loop variable is an object outside the buffer, so the copy overload is
passed as `fun v x => v.PushBack (.ext x)`. -/
def pushAll (push : SimpleVector α → α → Except Fault (SimpleVector α)) :
    SimpleVector α → List α → Except Fault (SimpleVector α × Nat)
  | a, [] => .ok (a, 0)
  | a, x :: xs => do
    let b ← push a x
    let (c, k) ← pushAll push b xs
    pure (c, (if b.capacity_ ≠ a.capacity_ then 1 else 0) + k)

end SimpleVector

end SV

/-! # Theorems

## Buffer accesses and the library loops -/

namespace SV

variable {α : Type}

theorem read_of_getElem? {p : ArrayPtr α} {i : Nat} {x : α} (h : p.cells[i]? = some x) :
    p.read i = .ok x := by
  simp [ArrayPtr.read, h]

theorem read_of_lt {p : ArrayPtr α} {i : Nat} (h : i < p.cells.length) :
    ∃ x, p.cells[i]? = some x ∧ p.read i = .ok x :=
  ⟨p.cells[i], List.getElem?_eq_getElem h, read_of_getElem? (List.getElem?_eq_getElem h)⟩

theorem write_of_lt {p : ArrayPtr α} {i : Nat} (v : α) (h : i < p.cells.length) :
    p.write i v = .ok ⟨p.cells.set i v⟩ := by
  simp [ArrayPtr.write, h]

theorem write_of_le {p : ArrayPtr α} {i : Nat} (v : α) (h : p.cells.length ≤ i) :
    p.write i v = .error .wildAccess := by
  simp [ArrayPtr.write, Nat.not_lt.mpr h]

theorem copyLoop_spec (src : ArrayPtr α) :
    ∀ (n first : Nat) (dst : ArrayPtr α) (d : Nat),
      first + n ≤ src.cells.length → d + n ≤ dst.cells.length →
      ∃ r, copyLoop src first dst d n = .ok r ∧ r.cells.length = dst.cells.length ∧
        ∀ i, r.cells[i]? =
          if d ≤ i ∧ i < d + n then src.cells[first + (i - d)]? else dst.cells[i]? := by
  intro n
  induction n with
  | zero =>
    intro first dst d _ _
    refine ⟨dst, rfl, rfl, fun i => ?_⟩
    split_ifs with h
    · omega
    · rfl
  | succ n ih =>
    intro first dst d hs hd
    obtain ⟨x, hx, hr⟩ := read_of_lt (p := src) (i := first) (by omega)
    have hw := write_of_lt (p := dst) (i := d) x (by omega)
    obtain ⟨r, hrun, hlen, hget⟩ := ih (first + 1) ⟨dst.cells.set d x⟩ (d + 1)
      (by omega) (by simp; omega)
    refine ⟨r, ?_, by simpa using hlen, fun i => ?_⟩
    · simp only [copyLoop, hr, hw, bind, Except.bind]
      exact hrun
    · rw [hget i]
      simp only [List.getElem?_set]
      by_cases h1 : d + 1 ≤ i ∧ i < d + 1 + n
      · have h2 : d ≤ i ∧ i < d + (n + 1) := by omega
        have h3 : first + 1 + (i - (d + 1)) = first + (i - d) := by omega
        simp [h1, h2, h3]
      · by_cases h4 : i = d
        · subst h4
          have h2 : i ≤ i ∧ i < i + (n + 1) := by omega
          have h5 : i < dst.cells.length := by omega
          simp [h1, h2, h5, hx]
        · have h2 : ¬ (d ≤ i ∧ i < d + (n + 1)) := by omega
          have h6 : ¬ d = i := fun h => h4 h.symm
          simp [h1, h2, h6]

theorem fillLoop_spec (v : α) :
    ∀ (n first : Nat) (buf : ArrayPtr α), first + n ≤ buf.cells.length →
      ∃ r, fillLoop buf first v n = .ok r ∧ r.cells.length = buf.cells.length ∧
        ∀ i, r.cells[i]? = if first ≤ i ∧ i < first + n then some v else buf.cells[i]? := by
  intro n
  induction n with
  | zero =>
    intro first buf _
    refine ⟨buf, rfl, rfl, fun i => ?_⟩
    split_ifs with h
    · omega
    · rfl
  | succ n ih =>
    intro first buf hb
    have hw := write_of_lt (p := buf) (i := first) v (by omega)
    obtain ⟨r, hrun, hlen, hget⟩ := ih (first + 1) ⟨buf.cells.set first v⟩ (by simp; omega)
    refine ⟨r, ?_, by simpa using hlen, fun i => ?_⟩
    · simp only [fillLoop, hw, bind, Except.bind]
      exact hrun
    · rw [hget i]
      simp only [List.getElem?_set]
      by_cases h1 : first + 1 ≤ i ∧ i < first + 1 + n
      · have h2 : first ≤ i ∧ i < first + (n + 1) := by omega
        simp [h1, h2]
      · by_cases h4 : i = first
        · subst h4
          have h2 : i ≤ i ∧ i < i + (n + 1) := by omega
          have h5 : i < buf.cells.length := by omega
          simp [h1, h2, h5]
        · have h2 : ¬ (first ≤ i ∧ i < first + (n + 1)) := by omega
          have h6 : ¬ first = i := fun h => h4 h.symm
          simp [h1, h2, h6]

/-- `std::move(buf + k + 1, buf + k + 1 + n, buf + k)`: the `n` elements after
slot `k` move one slot to the left. -/
theorem moveLoop_shift_left :
    ∀ (n k : Nat) (buf : ArrayPtr α), k + 1 + n ≤ buf.cells.length →
      ∃ r, moveLoop buf (k + 1) k n = .ok r ∧ r.cells.length = buf.cells.length ∧
        ∀ i, r.cells[i]? = if k ≤ i ∧ i < k + n then buf.cells[i + 1]? else buf.cells[i]? := by
  intro n
  induction n with
  | zero =>
    intro k buf _
    refine ⟨buf, rfl, rfl, fun i => ?_⟩
    split_ifs with h
    · omega
    · rfl
  | succ n ih =>
    intro k buf hb
    obtain ⟨x, hx, hr⟩ := read_of_lt (p := buf) (i := k + 1) (by omega)
    have hw := write_of_lt (p := buf) (i := k) x (by omega)
    obtain ⟨r, hrun, hlen, hget⟩ := ih (k + 1) ⟨buf.cells.set k x⟩ (by simp; omega)
    refine ⟨r, ?_, by simpa using hlen, fun i => ?_⟩
    · simp only [moveLoop, hr, hw, bind, Except.bind]
      exact hrun
    · rw [hget i]
      simp only [List.getElem?_set]
      by_cases h1 : k + 1 ≤ i ∧ i < k + 1 + n
      · have h2 : k ≤ i ∧ i < k + (n + 1) := by omega
        have h6 : ¬ k = i + 1 := by omega
        simp [h1, h2, h6]
      · by_cases h4 : i = k
        · subst h4
          have h2 : i ≤ i ∧ i < i + (n + 1) := by omega
          have h5 : i < buf.cells.length := by omega
          simp [h1, h2, h5, hx]
        · have h2 : ¬ (k ≤ i ∧ i < k + (n + 1)) := by omega
          have h6 : ¬ k = i := fun h => h4 h.symm
          simp [h1, h2, h6]

/-- `std::copy_backward(buf + first, buf + first + n, buf + first + n + 1)`: the
`n` elements from slot `first` on move one slot to the right. -/
theorem backwardLoop_shift_right (first : Nat) :
    ∀ (n : Nat) (buf : ArrayPtr α), first + n + 1 ≤ buf.cells.length →
      ∃ r, backwardLoop buf first n (first + n + 1) = .ok r ∧
        r.cells.length = buf.cells.length ∧
        ∀ i, r.cells[i]? =
          if first < i ∧ i ≤ first + n then buf.cells[i - 1]? else buf.cells[i]? := by
  intro n
  induction n with
  | zero =>
    intro buf _
    refine ⟨buf, rfl, rfl, fun i => ?_⟩
    split_ifs with h
    · omega
    · rfl
  | succ n ih =>
    intro buf hb
    obtain ⟨x, hx, hr⟩ := read_of_lt (p := buf) (i := first + n) (by omega)
    have hw := write_of_lt (p := buf) (i := first + n + 1) x (by omega)
    obtain ⟨r, hrun, hlen, hget⟩ := ih ⟨buf.cells.set (first + n + 1) x⟩ (by simp; omega)
    refine ⟨r, ?_, by simpa using hlen, fun i => ?_⟩
    · have h0 : ¬ (first + (n + 1) + 1 = 0) := by omega
      have h1 : first + (n + 1) + 1 - 1 = first + n + 1 := by omega
      simp only [backwardLoop, h0, if_false, h1, hr, hw, bind, Except.bind]
      exact hrun
    · rw [hget i]
      simp only [List.getElem?_set]
      by_cases h1 : first < i ∧ i ≤ first + n
      · have h2 : first < i ∧ i ≤ first + (n + 1) := by omega
        have h6 : ¬ first + n + 1 = i - 1 := by omega
        simp [h1, h2, h6]
      · by_cases h4 : i = first + n + 1
        · subst h4
          have h2 : first < first + n + 1 ∧ first + n + 1 ≤ first + (n + 1) := by omega
          have h5 : first + n + 1 < buf.cells.length := by omega
          simp [h1, h2, h5, hx]
        · have h2 : ¬ (first < i ∧ i ≤ first + (n + 1)) := by omega
          have h6 : ¬ first + n + 1 = i := fun h => h4 h.symm
          simp [h1, h2, h6]

theorem alloc_length [RawStorage α] (n : Nat) : (ArrayPtr.alloc n : ArrayPtr α).cells.length = n := by
  simp [ArrayPtr.alloc]

theorem stdCopy_spec (src : ArrayPtr α) (first last : Nat) (dst : ArrayPtr α) (d : Nat)
    (h1 : first ≤ last) (h2 : last ≤ src.cells.length)
    (h3 : d + (last - first) ≤ dst.cells.length) :
    ∃ r, stdCopy src first last dst d = .ok r ∧ r.cells.length = dst.cells.length ∧
      ∀ i, r.cells[i]? =
        if d ≤ i ∧ i < d + (last - first) then src.cells[first + (i - d)]? else dst.cells[i]? := by
  have h : ¬ last < first := by omega
  simp only [stdCopy, h, if_false]
  exact copyLoop_spec src (last - first) first dst d (by omega) h3

theorem stdFill_spec (buf : ArrayPtr α) (first last : Nat) (v : α)
    (h1 : first ≤ last) (h2 : last ≤ buf.cells.length) :
    ∃ r, stdFill buf first last v = .ok r ∧ r.cells.length = buf.cells.length ∧
      ∀ i, r.cells[i]? = if first ≤ i ∧ i < last then some v else buf.cells[i]? := by
  have h : ¬ last < first := by omega
  simp only [stdFill, h, if_false]
  obtain ⟨r, hr, hl, hg⟩ := fillLoop_spec v (last - first) first buf (by omega)
  refine ⟨r, hr, hl, fun i => ?_⟩
  rw [hg i]
  have e : first + (last - first) = last := by omega
  rw [e]

theorem stdMoveWithin_shift_left (buf : ArrayPtr α) (k last : Nat)
    (h1 : k < last) (h2 : last ≤ buf.cells.length) :
    ∃ r, stdMoveWithin buf (k + 1) last k = .ok r ∧ r.cells.length = buf.cells.length ∧
      ∀ i, r.cells[i]? = if k ≤ i ∧ i + 1 < last then buf.cells[i + 1]? else buf.cells[i]? := by
  have h : ¬ last < k + 1 := by omega
  simp only [stdMoveWithin, h, if_false]
  obtain ⟨r, hr, hl, hg⟩ := moveLoop_shift_left (last - (k + 1)) k buf (by omega)
  refine ⟨r, hr, hl, fun i => ?_⟩
  rw [hg i]
  by_cases c : k ≤ i ∧ i + 1 < last
  · have c2 : k ≤ i ∧ i < k + (last - (k + 1)) := by omega
    simp [c, c2]
  · have c2 : ¬ (k ≤ i ∧ i < k + (last - (k + 1))) := by omega
    simp [c, c2]

theorem stdCopyBackward_shift_right (buf : ArrayPtr α) (first last : Nat)
    (h1 : first ≤ last) (h2 : last < buf.cells.length) :
    ∃ r, stdCopyBackward buf first last (last + 1) = .ok r ∧
      r.cells.length = buf.cells.length ∧
      ∀ i, r.cells[i]? = if first < i ∧ i ≤ last then buf.cells[i - 1]? else buf.cells[i]? := by
  have h : ¬ last < first := by omega
  simp only [stdCopyBackward, h, if_false]
  have e : last + 1 = first + (last - first) + 1 := by omega
  rw [e]
  obtain ⟨r, hr, hl, hg⟩ := backwardLoop_shift_right first (last - first) buf (by omega)
  refine ⟨r, hr, hl, fun i => ?_⟩
  rw [hg i]
  have e2 : first + (last - first) = last := by omega
  rw [e2]

theorem wrap_of_lt {n : Nat} (h : n < SIZE_MOD) : wrap n = n := Nat.mod_eq_of_lt h

theorem wrap_pred {n : Nat} (h0 : 0 < n) (h : n ≤ SIZE_MOD) : wrap (n + SIZE_MOD - 1) = n - 1 := by
  unfold wrap
  have e : n + SIZE_MOD - 1 = (n - 1) + SIZE_MOD := by omega
  rw [e, Nat.add_mod_right]
  exact Nat.mod_eq_of_lt (by omega)

namespace SimpleVector

theorem live_get (a : SimpleVector α) (i : Nat) :
    a.live[i]? = if i < a.size_ then a.items_.cells[i]? else none := by
  simp [live, List.getElem?_take]

theorem live_length (a : SimpleVector α) (h : a.size_ ≤ a.allocated) :
    a.live.length = a.size_ := by
  simp [live, allocated] at *
  omega

theorem index_eq (a : SimpleVector α) (i : Nat) (x : α) (h : a.items_.cells[i]? = some x) :
    a.index i = .ok x := read_of_getElem? h

/-- What `Resize` does to an array that satisfies the data-model invariant. -/
theorem Resize_spec [RawStorage α] [Inhabited α] (a : SimpleVector α) (n : Nat) (hv : a.Valid) :
    ∃ b, a.Resize n = .ok b ∧ b.size_ = n ∧
      b.capacity_ = (if n < a.capacity_ then a.capacity_ else n) ∧
      b.capacity_ ≤ b.allocated ∧
      ∀ i, i < n → b.items_.cells[i]? =
        if i < a.size_ then a.items_.cells[i]? else some default := by
  obtain ⟨h1, h2⟩ := hv
  unfold allocated at h2
  by_cases c1 : n < a.size_
  · refine ⟨{ a with size_ := n }, by simp [Resize, c1, pure, Except.pure], rfl, ?_, ?_, ?_⟩
    · have : n < a.capacity_ := by omega
      simp [this]
    · simpa [allocated] using h2
    · intro i hi
      have : i < a.size_ := by omega
      simp [this]
  · by_cases c2 : n < a.capacity_
    · obtain ⟨r, hr, hl, hg⟩ := stdFill_spec a.items_ a.size_ n (default : α) (by omega) (by omega)
      refine ⟨{ a with items_ := r, size_ := n }, ?_, rfl, ?_, ?_, ?_⟩
      · simp [Resize, c1, c2, hr, bind, Except.bind, pure, Except.pure]
      · simp [c2]
      · simp [allocated, hl]; omega
      · intro i hi
        simp only [hg i]
        by_cases c3 : i < a.size_
        · have : ¬ (a.size_ ≤ i ∧ i < n) := by omega
          simp [c3, this]
        · have : a.size_ ≤ i ∧ i < n := by omega
          simp [c3, this]
    · obtain ⟨r1, hr1, hl1, hg1⟩ := stdCopy_spec a.items_ 0 a.size_ (ArrayPtr.alloc n) 0
        (by omega) (by omega) (by rw [alloc_length]; omega)
      obtain ⟨r2, hr2, hl2, hg2⟩ := stdFill_spec r1 a.size_ n (default : α) (by omega)
        (by rw [hl1, alloc_length])
      refine ⟨⟨r2, n, n⟩, ?_, rfl, ?_, ?_, ?_⟩
      · simp [Resize, c1, c2, hr1, hr2, bind, Except.bind, pure, Except.pure]
      · simp [c2]
      · simp [allocated, hl2, hl1, alloc_length]
      · intro i hi
        simp only [hg2 i, hg1 i]
        by_cases c3 : i < a.size_
        · have : ¬ (a.size_ ≤ i ∧ i < n) := by omega
          simp [c3, this]
        · have : a.size_ ≤ i ∧ i < n := by omega
          simp [c3, this]


theorem one_lt_SIZE_MOD : 1 < SIZE_MOD := by
  unfold SIZE_MOD; norm_num

theorem live_snoc (a b : SimpleVector α) (x : α) (hs : b.size_ = a.size_ + 1)
    (ha : a.size_ ≤ a.allocated)
    (h1 : ∀ i, i < a.size_ → b.items_.cells[i]? = a.items_.cells[i]?)
    (h2 : b.items_.cells[a.size_]? = some x) : b.live = a.live ++ [x] := by
  apply List.ext_getElem?
  intro i
  rw [live_get, List.getElem?_append, live_length a ha, live_get, hs]
  by_cases c : i < a.size_
  · have c2 : i < a.size_ + 1 := by omega
    simp [c, c2, h1 i c]
  · by_cases c3 : i = a.size_
    · subst c3
      simp [h2]
    · have c2 : ¬ i < a.size_ + 1 := by omega
      have c4 : i - a.size_ ≠ 0 := by omega
      simp [c, c2, List.getElem?_cons, c4]

/-- What the copy overload of `PushBack` does with an argument that is an object
outside the buffer. -/
theorem PushBack_spec [RawStorage α] [Inhabited α] (a : SimpleVector α) (x : α)
    (hv : a.Valid) (hb : a.Bounded) :
    ∃ b, a.PushBack (.ext x) = .ok b ∧ b.size_ = a.size_ + 1 ∧
      b.capacity_ = (if a.size_ + 1 < a.capacity_ then a.capacity_ else a.size_ + 1) ∧
      b.capacity_ ≤ b.allocated ∧
      (∀ i, i < a.size_ → b.items_.cells[i]? = a.items_.cells[i]?) ∧
      b.items_.cells[a.size_]? = some x := by
  have hv' := hv
  obtain ⟨h1, h2⟩ := hv'
  have hb' : a.capacity_ * 2 < SIZE_MOD := hb
  have hm := one_lt_SIZE_MOD
  have hw : wrap (a.size_ + 1) = a.size_ + 1 := wrap_of_lt (by omega)
  obtain ⟨b0, hr, hs, hc, hal, hg⟩ := Resize_spec a (a.size_ + 1) hv
  have hw2 : wrap (b0.size_ + SIZE_MOD - 1) = a.size_ := by
    rw [hs, wrap_pred (by omega) (by omega)]; omega
  have hcap : a.size_ + 1 ≤ b0.capacity_ := by
    rw [hc]; split_ifs <;> omega
  have hlt : a.size_ < b0.items_.cells.length := by
    unfold allocated at hal; omega
  refine ⟨{ b0 with items_ := ⟨b0.items_.cells.set a.size_ x⟩ }, ?_, hs, hc, ?_, ?_, ?_⟩
  · simp only [PushBack, hw, hr, bind, Except.bind, Ref.read, Ref.readReleased, ite_self, hw2,
      write_of_lt x hlt, pure, Except.pure]
  · simpa [allocated] using hal
  · intro i hi
    have hne : ¬ a.size_ = i := by omega
    have := hg i (by omega)
    simp [List.getElem?_set, hne, this, hi]
  · simp [List.getElem?_set, hlt]

theorem PushBackMove_spec [RawStorage α] (a : SimpleVector α) (x : α)
    (hv : a.Valid) (hb : a.Bounded) :
    ∃ b, a.PushBackMove x = .ok b ∧ b.size_ = a.size_ + 1 ∧
      b.capacity_ = (if a.size_ < a.capacity_ then a.capacity_ else max 1 (a.capacity_ * 2)) ∧
      b.capacity_ ≤ b.allocated ∧
      (∀ i, i < a.size_ → b.items_.cells[i]? = a.items_.cells[i]?) ∧
      b.items_.cells[a.size_]? = some x := by
  obtain ⟨h1, h2⟩ := hv
  unfold allocated at h2
  have hb' : a.capacity_ * 2 < SIZE_MOD := hb
  have hm := one_lt_SIZE_MOD
  have hw : wrap (a.size_ + 1) = a.size_ + 1 := wrap_of_lt (by omega)
  by_cases c : a.size_ ≠ a.capacity_
  · have hlt : a.size_ < a.items_.cells.length := by omega
    have hc : a.size_ < a.capacity_ := by omega
    refine ⟨{ a with items_ := ⟨a.items_.cells.set a.size_ x⟩, size_ := a.size_ + 1 },
      ?_, rfl, ?_, ?_, ?_, ?_⟩
    · unfold PushBackMove
      rw [if_pos c]
      simp only [write_of_lt x hlt, bind, Except.bind, hw, pure, Except.pure]
    · simp [hc]
    · simpa [allocated] using h2
    · intro i hi
      have hne : ¬ a.size_ = i := by omega
      simp [List.getElem?_set, hne]
    · simp [List.getElem?_set, hlt]
  · have c' : a.size_ = a.capacity_ := by simpa using c
    have hnc : (if a.capacity_ = 0 then 1 else wrap (a.capacity_ * 2)) = max 1 (a.capacity_ * 2) := by
      rw [wrap_of_lt hb']
      split_ifs with h0
      · simp [h0]
      · omega
    have hge : a.size_ + 1 ≤ max 1 (a.capacity_ * 2) := by omega
    obtain ⟨r1, hr1, hl1, hg1⟩ := stdCopy_spec a.items_ 0 a.size_
      (ArrayPtr.alloc (max 1 (a.capacity_ * 2))) 0 (by omega) (by omega)
      (by rw [alloc_length]; omega)
    have hlt : a.size_ < r1.cells.length := by rw [hl1, alloc_length]; omega
    refine ⟨⟨⟨r1.cells.set a.size_ x⟩, a.size_ + 1, max 1 (a.capacity_ * 2)⟩,
      ?_, rfl, ?_, ?_, ?_, ?_⟩
    · unfold PushBackMove
      rw [if_neg c]
      simp only [hnc, hr1, write_of_lt x hlt, bind, Except.bind, hw, pure, Except.pure]
    · have : ¬ a.size_ < a.capacity_ := by omega
      simp [this]
    · simp [allocated, hl1, alloc_length]
    · intro i hi
      have hne : ¬ a.size_ = i := by omega
      have hin : 0 ≤ i ∧ i < 0 + (a.size_ - 0) := by omega
      simp [List.getElem?_set, hne, hg1 i, hi]
    · simp [List.getElem?_set, hlt]


theorem index_congr (a b : SimpleVector α) (i : Nat)
    (h : b.items_.cells[i]? = a.items_.cells[i]?) : b.index i = a.index i := by
  simp [index, ArrayPtr.read, h]

/-- The postcondition of an append, read off the cells of the buffer. -/
theorem appended_of_cells (a b : SimpleVector α) (x : α) (ha : a.size_ ≤ a.allocated)
    (hs : b.size_ = a.size_ + 1)
    (h1 : ∀ i, i < a.size_ → b.items_.cells[i]? = a.items_.cells[i]?)
    (h2 : b.items_.cells[a.size_]? = some x) :
    b.size_ = a.size_ + 1 ∧ b.index (b.size_ - 1) = .ok x ∧
      (∀ i, i < a.size_ → b.index i = a.index i) ∧ b.live = a.live ++ [x] := by
  refine ⟨hs, ?_, fun i hi => index_congr a b i (h1 i hi), live_snoc a b x hs ha h1 h2⟩
  have e : b.size_ - 1 = a.size_ := by omega
  rw [e]
  exact index_eq b a.size_ x h2

/-- Both overloads of `PushBack`, given an object outside the buffer, succeed on
an array that satisfies the data-model invariant, make the size `old size + 1`,
leave `x` as the last live element and keep the elements at `[0, old size)` in
place, i.e. the live sequence becomes `old live ++ [x]`. -/
theorem PushBack_appends [RawStorage α] [Inhabited α] (a : SimpleVector α) (x : α)
    (hv : a.Valid) (hb : a.Bounded) :
    (∃ b, a.PushBack (.ext x) = .ok b ∧ b.size_ = a.size_ + 1 ∧
      b.index (b.size_ - 1) = .ok x ∧
      (∀ i, i < a.size_ → b.index i = a.index i) ∧ b.live = a.live ++ [x]) ∧
    (∃ c, a.PushBackMove x = .ok c ∧ c.size_ = a.size_ + 1 ∧ c.index (c.size_ - 1) = .ok x ∧
      (∀ i, i < a.size_ → c.index i = a.index i) ∧ c.live = a.live ++ [x]) := by
  have ha : a.size_ ≤ a.allocated := le_trans hv.1 hv.2
  obtain ⟨b, hb1, hs, _, _, h1, h2⟩ := PushBack_spec a x hv hb
  obtain ⟨c, hc1, hs', _, _, h1', h2'⟩ := PushBackMove_spec a x hv hb
  exact ⟨⟨b, hb1, appended_of_cells a b x ha hs h1 h2⟩,
    ⟨c, hc1, appended_of_cells a c x ha hs' h1' h2'⟩⟩

/-- The copy overload of `PushBack` reads a released buffer whenever its
argument is a slot of the array and `Resize` reallocates, which it does as soon
as `size + 1 >= capacity`. -/
theorem PushBack_slot_released [RawStorage α] [Inhabited α] (a : SimpleVector α) (j : Nat)
    (hv : a.Valid) (hb : a.Bounded) (hfull : a.capacity_ ≤ a.size_ + 1) :
    a.PushBack (.slot j) = .error .wildAccess := by
  have h1 := hv.1
  have hb' : a.capacity_ * 2 < SIZE_MOD := hb
  have hm := one_lt_SIZE_MOD
  have hw : wrap (a.size_ + 1) = a.size_ + 1 := wrap_of_lt (by omega)
  obtain ⟨b0, hr, _⟩ := Resize_spec a (a.size_ + 1) hv
  have hrel : a.ResizeReleases (a.size_ + 1) = true := by
    have c1 : ¬ a.size_ + 1 < a.size_ := by omega
    have c2 : ¬ a.size_ + 1 < a.capacity_ := by omega
    simp [ResizeReleases, c1, c2]
  simp only [PushBack, hw, hr, hrel, bind, Except.bind, Ref.readReleased, if_true]

/-- C1: the copy overload of `PushBack` reads `item` after `Resize` has released
the buffer `item` may refer into. On the full array `{1, 2}` the call
`a.PushBack(a[0])` designates the value 1 and ends in a read of released
storage; the move overload, which reads `item` before the buffer is released,
appends 1 as the claim requires. -/
theorem C1_PushBack_copy_reads_released_item :
    ex12.Valid ∧ ex12.Designates (.slot 0) ∧ ex12.index 0 = .ok 1 ∧
    ex12.ResizeReleases (ex12.size_ + 1) = true ∧
    ex12.PushBack (.slot 0) = .error .wildAccess ∧
    ex12.PushBackMove 1 = .ok ⟨⟨[1, 2, 1, -4]⟩, 3, 4⟩ := by
  refine ⟨by decide, by decide, rfl, rfl, rfl, rfl⟩


/-- The live sequence after an insertion, read off the cells of the buffer. -/
theorem live_insert (a b : SimpleVector α) (p : Nat) (v : α) (hp : p ≤ a.size_)
    (ha : a.size_ ≤ a.allocated) (hs : b.size_ = a.size_ + 1)
    (h : ∀ i, i < a.size_ + 1 → b.items_.cells[i]? =
      if i < p then a.items_.cells[i]? else if i = p then some v else a.items_.cells[i - 1]?) :
    b.live = a.live.take p ++ [v] ++ a.live.drop p := by
  apply List.ext_getElem?
  intro i
  have hl := live_length a ha
  have hlt : (List.take p a.live).length = p := by
    rw [List.length_take, hl]; omega
  rw [live_get, hs, List.append_assoc, List.getElem?_append, hlt]
  by_cases c1 : i < p
  · have c2 : i < a.size_ + 1 := by omega
    have c3 : i < a.size_ := by omega
    simp [c1, c2, c3, h i c2, List.getElem?_take, live_get]
  · by_cases c2 : i = p
    · subst c2
      have c3 : i < a.size_ + 1 := by omega
      simp [c3, h i c3]
    · have c4 : i - p ≠ 0 := by omega
      have c5 : p + (i - p - 1) = i - 1 := by omega
      by_cases c3 : i < a.size_ + 1
      · have c6 : i - 1 < a.size_ := by omega
        simp [c1, c2, c3, c4, c5, c6, h i c3, List.getElem?_cons, List.getElem?_drop, live_get]
      · have c6 : ¬ i - 1 < a.size_ := by omega
        simp [c1, c3, c4, c5, c6, List.getElem?_cons, List.getElem?_drop, live_get]

/-- Reading an argument that designates a value succeeds in every buffer that
holds the live range; an object outside the buffer is read with its value. -/
theorem read_designated (a : SimpleVector α) (v : Ref α) (buf : ArrayPtr α)
    (hd : a.Designates v) (hlen : a.size_ ≤ buf.cells.length) :
    ∃ y, v.read buf = .ok y ∧ ∀ x, v = .ext x → y = x := by
  cases v with
  | ext x =>
    refine ⟨x, rfl, ?_⟩
    intro x' h
    cases h
    rfl
  | slot j =>
    have hj : j < a.size_ := hd
    obtain ⟨y, _, hy⟩ := read_of_lt (p := buf) (i := j) (by omega)
    refine ⟨y, hy, ?_⟩
    intro x' h
    cases h

/-- What the body shared by the two `Insert` overloads does at an offset
`p <= size` of an array that satisfies the data-model invariant, for an
argument that designates a value: slot `p` receives the value `y` read through
the argument at the time of the read, which is the value of the argument when
it is an object outside the buffer. -/
theorem InsertMove_spec [RawStorage α] (a : SimpleVector α) (p : Nat) (v : Ref α)
    (hv : a.Valid) (hb : a.Bounded) (hp : p ≤ a.size_) (hd : a.Designates v) :
    ∃ b y, a.InsertMove p v = .ok (p, b) ∧ (∀ x, v = .ext x → y = x) ∧
      b.size_ = a.size_ + 1 ∧
      b.capacity_ = (if a.size_ < a.capacity_ then a.capacity_ else max 1 (a.capacity_ * 2)) ∧
      b.size_ ≤ b.capacity_ ∧ b.capacity_ ≤ b.allocated ∧
      ∀ i, i < a.size_ + 1 → b.items_.cells[i]? =
        if i < p then a.items_.cells[i]? else if i = p then some y
        else a.items_.cells[i - 1]? := by
  obtain ⟨h1, h2⟩ := hv
  unfold allocated at h2
  have hb' : a.capacity_ * 2 < SIZE_MOD := hb
  have hm := one_lt_SIZE_MOD
  have hw : wrap (a.size_ + 1) = a.size_ + 1 := wrap_of_lt (by omega)
  by_cases c : a.size_ ≠ a.capacity_
  · have hc : a.size_ < a.capacity_ := by omega
    obtain ⟨r, hr, hl, hg⟩ := stdCopyBackward_shift_right a.items_ p a.size_ hp (by omega)
    have hlt : p < r.cells.length := by omega
    obtain ⟨y, hy, hyx⟩ := read_designated a v r hd (by omega)
    refine ⟨{ a with items_ := ⟨r.cells.set p y⟩, size_ := a.size_ + 1 }, y, ?_, hyx, rfl, ?_,
      ?_, ?_, ?_⟩
    · unfold InsertMove
      rw [if_pos c]
      simp only [hr, hy, write_of_lt y hlt, bind, Except.bind, hw, pure, Except.pure]
    · simp [hc]
    · show a.size_ + 1 ≤ a.capacity_
      omega
    · simp [allocated, hl]; omega
    · intro i hi
      simp only [List.getElem?_set, hg i]
      by_cases c1 : i < p
      · have c2 : ¬ p = i := by omega
        have c3 : ¬ (p < i ∧ i ≤ a.size_) := by omega
        simp [c1, c2, c3]
      · by_cases c2 : i = p
        · subst c2
          simp [hlt]
        · have c3 : ¬ p = i := fun h => c2 h.symm
          have c4 : p < i ∧ i ≤ a.size_ := by omega
          simp [c1, c2, c3, c4]
  · have c' : a.size_ = a.capacity_ := by simpa using c
    have hnc : (if a.capacity_ = 0 then 1 else wrap (a.capacity_ * 2)) =
        max 1 (a.capacity_ * 2) := by
      rw [wrap_of_lt hb']
      split_ifs with h0
      · simp [h0]
      · omega
    have hge : a.size_ + 1 ≤ max 1 (a.capacity_ * 2) := by omega
    obtain ⟨r1, hr1, hl1, hg1⟩ := stdCopy_spec a.items_ 0 p
      (ArrayPtr.alloc (max 1 (a.capacity_ * 2))) 0 (by omega) (by omega)
      (by rw [alloc_length]; omega)
    rw [alloc_length] at hl1
    have hlt : p < r1.cells.length := by omega
    obtain ⟨y, hy, hyx⟩ := read_designated a v a.items_ hd (by omega)
    obtain ⟨r3, hr3, hl3, hg3⟩ := stdCopy_spec a.items_ p a.size_ ⟨r1.cells.set p y⟩ (p + 1)
      hp (by omega) (by simp; omega)
    refine ⟨⟨r3, a.size_ + 1, max 1 (a.capacity_ * 2)⟩, y, ?_, hyx, rfl, ?_, ?_, ?_, ?_⟩
    · unfold InsertMove
      rw [if_neg c]
      simp only [hnc, hr1, hy, write_of_lt y hlt, hr3, bind, Except.bind, hw, pure,
        Except.pure]
    · have : ¬ a.size_ < a.capacity_ := by omega
      simp [this]
    · exact hge
    · simp [allocated, hl3, hl1]
    · intro i hi
      simp only [hg3 i, List.getElem?_set, hg1 i]
      by_cases c1 : i < p
      · have c2 : ¬ p = i := by omega
        have c3 : ¬ (p + 1 ≤ i ∧ i < p + 1 + (a.size_ - p)) := by omega
        have c4 : 0 ≤ i ∧ i < 0 + (p - 0) := by omega
        simp [c1, c2, c3, c4]
      · by_cases c2 : i = p
        · subst c2
          have c3 : ¬ (i + 1 ≤ i ∧ i < i + 1 + (a.size_ - i)) := by omega
          simp [c3, hlt]
        · have c3 : p + 1 ≤ i ∧ i < p + 1 + (a.size_ - p) := by omega
          have c5 : p + (i - (p + 1)) = i - 1 := by omega
          simp [c1, c2, c3, c5]

theorem Insert_eq_InsertMove [RawStorage α] (a : SimpleVector α) (p : Nat) (v : Ref α)
    (hp : p < a.size_) : a.Insert p v = a.InsertMove p v := by
  simp [Insert, InsertMove, hp]

/-- The copy overload of `Insert` stops at its assertion for every offset that
is not below the size, the end position included. -/
theorem Insert_assert [RawStorage α] (a : SimpleVector α) (p : Nat) (v : Ref α)
    (hp : a.size_ ≤ p) : a.Insert p v = .error .assertFailed := by
  have : ¬ p < a.size_ := by omega
  simp [Insert, this]


/-- The copy overload of `Insert`, given an object outside the buffer and an
offset `p < size`, succeeds on an array that satisfies the data-model
invariant; the live sequence becomes `e[0..p) ++ [x] ++ e[p..n)`, the size
`n + 1`, the capacity is kept when `n < capacity` and becomes
`max(1, capacity * 2)` when `n == capacity`, and the returned iterator is at
offset `p` of the buffer owned afterwards, where the inserted element is. -/
theorem Insert_places_value [RawStorage α] (a : SimpleVector α) (p : Nat) (x : α)
    (hv : a.Valid) (hb : a.Bounded) (hp : p < a.size_) :
    ∃ b, a.Insert p (.ext x) = .ok (p, b) ∧
      b.live = a.live.take p ++ [x] ++ a.live.drop p ∧ b.size_ = a.size_ + 1 ∧
      b.capacity_ = (if a.size_ < a.capacity_ then a.capacity_ else max 1 (a.capacity_ * 2)) ∧
      b.index p = .ok x := by
  have ha : a.size_ ≤ a.allocated := le_trans hv.1 hv.2
  obtain ⟨b, y, h1, hy, hs, hc, _, _, hg⟩ :=
    InsertMove_spec a p (.ext x) hv hb (le_of_lt hp) trivial
  have e : y = x := hy x rfl
  subst e
  refine ⟨b, by rw [Insert_eq_InsertMove a p _ hp]; exact h1,
    live_insert a b p y (le_of_lt hp) ha hs hg, hs, hc, ?_⟩
  apply index_eq
  have := hg p (by omega)
  simpa using this

/-- The move overload of `Insert`, given an object outside the buffer and an
offset `q <= size` (the end position and the empty array included), does the
same. -/
theorem InsertMove_places_value [RawStorage α] (a : SimpleVector α) (q : Nat) (x : α)
    (hv : a.Valid) (hb : a.Bounded) (hq : q ≤ a.size_) :
    ∃ c, a.InsertMove q (.ext x) = .ok (q, c) ∧
      c.live = a.live.take q ++ [x] ++ a.live.drop q ∧ c.size_ = a.size_ + 1 ∧
      c.capacity_ = (if a.size_ < a.capacity_ then a.capacity_ else max 1 (a.capacity_ * 2)) ∧
      c.index q = .ok x := by
  have ha : a.size_ ≤ a.allocated := le_trans hv.1 hv.2
  obtain ⟨c, y, h1, hy, hs, hc, _, _, hg⟩ := InsertMove_spec a q (.ext x) hv hb hq trivial
  have e : y = x := hy x rfl
  subst e
  refine ⟨c, h1, live_insert a c q y hq ha hs hg, hs, hc, ?_⟩
  apply index_eq
  have := hg q (by omega)
  simpa using this

/-- C3: in their in-place branch both overloads of `Insert` read `value` after
the range `[position, end)` was shifted one slot to the right. On `{1, 2}` with
a spare slot, `a.Insert(a.begin(), a[1])` designates the value 2 and leaves
`{1, 1, 2}` where the claim requires `{2, 1, 2}`; the returned iterator refers
to a 1. The reallocating branch of the same functions reads `value` from the
untouched old buffer and yields `{2, 1, 2}`. -/
theorem C3_Insert_reads_shifted_value :
    ex12spare.Valid ∧ ex12spare.Designates (.slot 1) ∧ ex12spare.index 1 = .ok 2 ∧
    ex12spare.live.take 0 ++ [2] ++ ex12spare.live.drop 0 = [2, 1, 2] ∧
    ex12spare.Insert 0 (.slot 1) = .ok (0, ⟨⟨[1, 1, 2]⟩, 3, 3⟩) ∧
    ex12spare.InsertMove 0 (.slot 1) = .ok (0, ⟨⟨[1, 1, 2]⟩, 3, 3⟩) ∧
    (⟨⟨[1, 1, 2]⟩, 3, 3⟩ : SimpleVector Int).live = [1, 1, 2] ∧
    ex12.Insert 0 (.slot 1) = .ok (0, ⟨⟨[2, 1, 2, -4]⟩, 3, 4⟩) ∧
    ex12.InsertMove 0 (.slot 1) = .ok (0, ⟨⟨[2, 1, 2, -4]⟩, 3, 4⟩) := by
  refine ⟨by decide, by decide, rfl, rfl, rfl, rfl, rfl, rfl, rfl⟩

/-- What `Erase` does at an offset below the size when the live range lies in
the buffer. -/
theorem Erase_spec (a : SimpleVector α) (p : Nat) (hp : p < a.size_)
    (ha : a.size_ ≤ a.allocated) (hm : a.size_ ≤ SIZE_MOD) :
    ∃ b, a.Erase p = .ok (p, b) ∧ b.size_ = a.size_ - 1 ∧ b.capacity_ = a.capacity_ ∧
      b.allocated = a.allocated ∧ b.live = a.live.take p ++ a.live.drop (p + 1) := by
  unfold allocated at ha
  obtain ⟨r, hr, hl, hg⟩ := stdMoveWithin_shift_left a.items_ p a.size_ hp ha
  have hw : wrap (a.size_ + SIZE_MOD - 1) = a.size_ - 1 := wrap_pred (by omega) hm
  refine ⟨{ a with items_ := r, size_ := a.size_ - 1 }, ?_, rfl, rfl, ?_, ?_⟩
  · simp [Erase, hp, hr, hw, bind, Except.bind, pure, Except.pure]
  · simp [allocated, hl]
  · apply List.ext_getElem?
    intro i
    have hlen := live_length a ha
    have hlt : (List.take p a.live).length = p := by
      rw [List.length_take, hlen]; omega
    rw [live_get, List.getElem?_append, hlt]
    show (if i < a.size_ - 1 then r.cells[i]? else none) = _
    rw [hg i]
    by_cases c1 : i < p
    · have c2 : i < a.size_ - 1 := by omega
      have c3 : ¬ (p ≤ i ∧ i + 1 < a.size_) := by omega
      have c4 : i < a.size_ := by omega
      simp [c1, c2, c3, c4, List.getElem?_take, live_get]
    · have c5 : p + 1 + (i - p) = i + 1 := by omega
      by_cases c2 : i < a.size_ - 1
      · have c3 : p ≤ i ∧ i + 1 < a.size_ := by omega
        have c4 : i + 1 < a.size_ := by omega
        simp [c1, c2, c3, c4, c5, List.getElem?_drop, live_get]
      · have c4 : ¬ i + 1 < a.size_ := by omega
        simp [c1, c2, c4, c5, List.getElem?_drop, live_get]

/-- C5: `Erase` at an offset `p < n` of an array that satisfies the data-model
invariant succeeds, leaves the live sequence `e[0..p) ++ e[p+1..n)`, makes the
size `n - 1`, keeps the capacity and returns the iterator at offset `p`. -/
theorem C5_Erase_removes_element (a : SimpleVector α) (p : Nat)
    (hv : a.Valid) (hb : a.Bounded) (hp : p < a.size_) :
    ∃ b, a.Erase p = .ok (p, b) ∧ b.live = a.live.take p ++ a.live.drop (p + 1) ∧
      b.size_ = a.size_ - 1 ∧ b.capacity_ = a.capacity_ := by
  have ha : a.size_ ≤ a.allocated := le_trans hv.1 hv.2
  have hb' : a.capacity_ * 2 < SIZE_MOD := hb
  have h1 := hv.1
  obtain ⟨b, h, hs, hc, _, hl⟩ := Erase_spec a p hp ha (by omega)
  exact ⟨b, h, hl, hs, hc⟩

/-- Instance of C5 on `{1, 2, 3, 4}`: erasing at offset 1. -/
theorem C5_Erase_removes_element_witness :
    ex1234.Valid ∧ ex1234.Bounded ∧ 1 < ex1234.size_ ∧
    ∃ b, ex1234.Erase 1 = .ok (1, b) ∧ b.live = ex1234.live.take 1 ++ ex1234.live.drop (1 + 1) ∧
      b.size_ = ex1234.size_ - 1 ∧ b.capacity_ = ex1234.capacity_ :=
  ⟨by decide, by decide, by decide,
    C5_Erase_removes_element ex1234 1 (by decide) (by decide) (by decide)⟩

/-- Erasing at the offset where a value was just inserted gives back the former
live sequence. -/
theorem take_drop_insert (l : List α) (p : Nat) (v : α) (hp : p ≤ l.length) :
    (l.take p ++ [v] ++ l.drop p).take p ++ (l.take p ++ [v] ++ l.drop p).drop (p + 1) = l := by
  have hlt : (List.take p l).length = p := by
    rw [List.length_take]; omega
  have e1 : (l.take p ++ [v] ++ l.drop p).take p = l.take p := by
    rw [List.append_assoc]
    exact List.take_left' hlt
  have e2 : (l.take p ++ [v] ++ l.drop p).drop (p + 1) = l.drop p := by
    have hlt2 : (l.take p ++ [v]).length = p + 1 := by simp [hlt]
    exact List.drop_left' hlt2
  rw [e1, e2, List.take_append_drop]

/-- C6: on every array that satisfies the data-model invariant, for every
argument that designates a value (an object outside the buffer or a live
element of the array) and every position the overload accepts, erasing at the
iterator that `Insert` returned succeeds and restores the former live sequence
and the former size.  `c` is any array with an element at offset `p`, the
positions the copy overload accepts; `a` is any array, the empty one included,
and `q <= size` any position the move overload accepts. -/
theorem C6_Erase_after_Insert [RawStorage α] (a c : SimpleVector α) (p q : Nat) (v w : Ref α)
    (hva : a.Valid) (hba : a.Bounded) (hq : q ≤ a.size_) (hdv : a.Designates v)
    (hvc : c.Valid) (hbc : c.Bounded) (hp : p < c.size_) (hdw : c.Designates w) :
    (∃ it b r, c.Insert p w = .ok (it, b) ∧ b.Erase it = .ok (it, r) ∧
      r.live = c.live ∧ r.size_ = c.size_) ∧
    (∃ it b r, a.InsertMove q v = .ok (it, b) ∧ b.Erase it = .ok (it, r) ∧
      r.live = a.live ∧ r.size_ = a.size_) := by
  have hm := one_lt_SIZE_MOD
  have key : ∀ (d : SimpleVector α) (k : Nat) (u : Ref α), d.Valid → d.Bounded →
      k ≤ d.size_ → d.Designates u →
      ∃ it b r, d.InsertMove k u = .ok (it, b) ∧ b.Erase it = .ok (it, r) ∧
        r.live = d.live ∧ r.size_ = d.size_ := by
    intro d k u hv hb hk hd
    have ha : d.size_ ≤ d.allocated := le_trans hv.1 hv.2
    have hb' : d.capacity_ * 2 < SIZE_MOD := hb
    have h1 := hv.1
    have hlen := live_length d ha
    obtain ⟨b, y, hi, _, hs, _, hsc, hca, hg⟩ := InsertMove_spec d k u hv hb hk hd
    have hbl := live_insert d b k y hk ha hs hg
    obtain ⟨r, he, hcs, _, _, hcl⟩ := Erase_spec b k (by omega) (le_trans hsc hca) (by omega)
    refine ⟨k, b, r, hi, he, ?_, by omega⟩
    rw [hcl, hbl]
    exact take_drop_insert d.live k y (by omega)
  refine ⟨?_, key a q v hva hba hq hdv⟩
  rw [Insert_eq_InsertMove c p w hp]
  exact key c p w hvc hbc (le_of_lt hp) hdw

/-- Instance of C6: the move overload on the empty array with an object outside
the buffer, the copy overload at the front of `{1, 2}` (capacity 3) with its own
element `a[1]` as argument. -/
theorem C6_Erase_after_Insert_witness :
    (empty : SimpleVector Int).Valid ∧ (empty : SimpleVector Int).Bounded ∧
    0 ≤ (empty : SimpleVector Int).size_ ∧ (empty : SimpleVector Int).Designates (.ext 7) ∧
    ex12spare.Valid ∧ ex12spare.Bounded ∧ 0 < ex12spare.size_ ∧
    ex12spare.Designates (.slot 1) ∧
    (∃ it b r, ex12spare.Insert 0 (.slot 1) = .ok (it, b) ∧ b.Erase it = .ok (it, r) ∧
      r.live = ex12spare.live ∧ r.size_ = ex12spare.size_) ∧
    (∃ it b r, (empty : SimpleVector Int).InsertMove 0 (.ext 7) = .ok (it, b) ∧
      b.Erase it = .ok (it, r) ∧
      r.live = (empty : SimpleVector Int).live ∧ r.size_ = (empty : SimpleVector Int).size_) :=
  ⟨by decide, by decide, by decide, by decide, by decide, by decide, by decide, by decide,
    C6_Erase_after_Insert (empty : SimpleVector Int) ex12spare 0 0 (.ext 7) (.slot 1)
      (by decide) (by decide) (by decide) (by decide) (by decide) (by decide) (by decide)
      (by decide)⟩

/-- C2: the copy overload of `PushBack` grows a full array by one slot, not by
doubling. On `{1, 2}` (size 2, capacity 2) it ends with capacity 3, where the
claim requires `max(1, 2 * 2) = 4`; the move overload ends with capacity 4. -/
theorem C2_PushBack_copy_grows_by_one :
    ex12.size_ = ex12.capacity_ ∧
    ex12.PushBack (.ext 5) = .ok ⟨⟨[1, 2, 5]⟩, 3, 3⟩ ∧
    (3 : Nat) ≠ max 1 (ex12.capacity_ * 2) ∧
    ex12.PushBackMove 5 = .ok ⟨⟨[1, 2, 5, -4]⟩, 3, 4⟩ ∧
    (4 : Nat) = max 1 (ex12.capacity_ * 2) := by
  refine ⟨rfl, rfl, by decide, rfl, rfl⟩

/-- The capacity after `PushBack`, for both overloads: the move overload follows
the doubling policy, the copy overload keeps the capacity while
`size + 1 < capacity` and otherwise makes it `size + 1`. -/
theorem PushBack_capacity [RawStorage α] [Inhabited α] (a : SimpleVector α) (x : α)
    (hv : a.Valid) (hb : a.Bounded) :
    (∃ c, a.PushBackMove x = .ok c ∧
      c.capacity_ = (if a.size_ < a.capacity_ then a.capacity_ else max 1 (a.capacity_ * 2))) ∧
    (∃ b, a.PushBack (.ext x) = .ok b ∧
      b.capacity_ = (if a.size_ + 1 < a.capacity_ then a.capacity_ else a.size_ + 1)) := by
  obtain ⟨b, hb1, _, hc, _⟩ := PushBack_spec a x hv hb
  obtain ⟨c, hc1, _, hc', _⟩ := PushBackMove_spec a x hv hb
  exact ⟨⟨c, hc1, hc'⟩, ⟨b, hb1, hc⟩⟩

/-- C4: the copy overload of `Insert` rejects the end position. On `{1, 2}` with a
spare slot `Insert(end(), 5)` stops at the assertion, and so does
`Insert(begin(), 5)` on the empty array; the move overload accepts both and
yields what `PushBack` yields. -/
theorem C4_Insert_copy_rejects_end :
    ex12spare.Insert ex12spare.size_ (.ext 5) = .error .assertFailed ∧
    (empty : SimpleVector Int).Insert 0 (.ext 5) = .error .assertFailed ∧
    ex12spare.InsertMove ex12spare.size_ (.ext 5) = .ok (2, ⟨⟨[1, 2, 5]⟩, 3, 3⟩) ∧
    ex12spare.PushBack (.ext 5) = .ok ⟨⟨[1, 2, 5]⟩, 3, 3⟩ ∧
    (empty : SimpleVector Int).InsertMove 0 (.ext 5) = .ok (0, ⟨⟨[5]⟩, 1, 1⟩) ∧
    (empty : SimpleVector Int).PushBack (.ext 5) = .ok ⟨⟨[5]⟩, 1, 1⟩ := by
  refine ⟨rfl, rfl, rfl, rfl, rfl, rfl⟩

/-- The move overload of `Insert` at the end position yields the live elements
and the size that `PushBack` yields. -/
theorem InsertMove_end_eq_PushBack [RawStorage α] [Inhabited α] (a : SimpleVector α) (v : α)
    (hv : a.Valid) (hb : a.Bounded) :
    ∃ b c d, a.InsertMove a.size_ (.ext v) = .ok (a.size_, b) ∧ a.PushBack (.ext v) = .ok c ∧
      a.PushBackMove v = .ok d ∧ b.live = c.live ∧ b.size_ = c.size_ ∧
      b.live = d.live ∧ b.size_ = d.size_ := by
  have ha : a.size_ ≤ a.allocated := le_trans hv.1 hv.2
  obtain ⟨b, y, h1, hy, hs, _, _, _, hg⟩ :=
    InsertMove_spec a a.size_ (.ext v) hv hb (le_refl _) trivial
  have e : y = v := hy v rfl
  rw [e] at hg
  obtain ⟨c, hc1, hcs, _, _, hc2, hc3⟩ := PushBack_spec a v hv hb
  obtain ⟨d, hd1, hds, _, _, hd2, hd3⟩ := PushBackMove_spec a v hv hb
  have hbl := live_insert a b a.size_ v (le_refl _) ha hs hg
  have hl := live_length a ha
  have e1 : a.live.take a.size_ = a.live := List.take_of_length_le (by omega)
  have e2 : a.live.drop a.size_ = [] := List.drop_of_length_le (by omega)
  rw [e1, e2, List.append_nil] at hbl
  refine ⟨b, c, d, h1, hc1, hd1, ?_, by omega, ?_, by omega⟩
  · rw [hbl, live_snoc a c v hcs ha hc2 hc3]
  · rw [hbl, live_snoc a d v hds ha hd2 hd3]

/-- C7: `Resize(newSize)` on an array that satisfies the data-model invariant
succeeds; the size becomes `newSize`, the elements at `[0, min(s, newSize))`
are kept, every element at `[s, newSize)` is the default value, and the
capacity is `c` when `newSize <= c` and `newSize` when `newSize > c`. -/
theorem C7_Resize_postcondition [RawStorage α] [Inhabited α] (a : SimpleVector α)
    (newSize : Nat) (hv : a.Valid) :
    ∃ b, a.Resize newSize = .ok b ∧ b.size_ = newSize ∧
      (∀ i, i < min a.size_ newSize → b.index i = a.index i) ∧
      (∀ i, a.size_ ≤ i → i < newSize → b.index i = .ok default) ∧
      b.capacity_ = (if newSize ≤ a.capacity_ then a.capacity_ else newSize) := by
  obtain ⟨b, hr, hs, hc, _, hg⟩ := Resize_spec a newSize hv
  refine ⟨b, hr, hs, ?_, ?_, ?_⟩
  · intro i hi
    apply index_congr
    have h1 : i < a.size_ := by omega
    rw [hg i (by omega)]
    simp [h1]
  · intro i h1 h2
    apply index_eq
    have h3 : ¬ i < a.size_ := by omega
    rw [hg i h2]
    simp [h3]
  · rw [hc]
    by_cases c1 : newSize < a.capacity_
    · have c2 : newSize ≤ a.capacity_ := by omega
      simp [c1, c2]
    · by_cases c2 : newSize ≤ a.capacity_
      · have : newSize = a.capacity_ := by omega
        simp [this]
      · simp [c1, c2]

/-- Instance of C7 on `{1, 2}` with capacity 3: growth to 5 elements. -/
theorem C7_Resize_postcondition_witness :
    ex12spare.Valid ∧
    ∃ b, ex12spare.Resize 5 = .ok b ∧ b.size_ = 5 ∧
      (∀ i, i < min ex12spare.size_ 5 → b.index i = ex12spare.index i) ∧
      (∀ i, ex12spare.size_ ≤ i → i < 5 → b.index i = .ok default) ∧
      b.capacity_ = (if 5 ≤ ex12spare.capacity_ then ex12spare.capacity_ else 5) :=
  ⟨by decide, C7_Resize_postcondition ex12spare 5 (by decide)⟩

/-- A fault of `operator[]` is never the `std::out_of_range` exception. -/
theorem index_ne_outOfRange (a : SimpleVector α) (i : Nat) :
    a.index i ≠ .error .outOfRange := by
  simp only [index, ArrayPtr.read]
  split <;> simp

/-- On every array and at every index, both overloads of `At` throw
`std::out_of_range` exactly when the index is not below the size. -/
theorem At_throws_iff (a : SimpleVector α) (i : Nat) :
    (a.At i = .error .outOfRange ↔ a.size_ ≤ i) ∧
    (a.AtConst i = .error .outOfRange ↔ a.size_ ≤ i) := by
  have hne := index_ne_outOfRange a i
  by_cases c : i < a.size_
  · have c2 : ¬ a.size_ ≤ i := by omega
    constructor
    · simp only [At, c, c2, iff_false]
      cases h : a.index i with
      | error e =>
        rw [h] at hne
        simpa [bind, Except.bind] using hne
      | ok x => simp [bind, Except.bind, pure, Except.pure]
    · simp only [AtConst, c, c2, iff_false]
      simpa using hne
  · have c2 : a.size_ ≤ i := by omega
    simp [At, AtConst, c, c2]

/-- C8: on every array `a`, the empty one included, and at every index `i`,
checked access `At(i)`, in the mutable and in the const overload, throws
`std::out_of_range` exactly when `i >= size()`; at every `j < size()` of an
array `c` whose live range lies in its buffer it succeeds, yields the element
that `operator[]` yields and leaves the array as it was. -/
theorem C8_At_checked (a c : SimpleVector α) (i j : Nat)
    (hc : c.size_ ≤ c.allocated) (hj : j < c.size_) :
    (a.At i = .error .outOfRange ↔ a.size_ ≤ i) ∧
    (a.AtConst i = .error .outOfRange ↔ a.size_ ≤ i) ∧
    ∃ x, c.index j = .ok x ∧ c.At j = .ok (x, c) ∧ c.AtConst j = .ok x := by
  unfold allocated at hc
  refine ⟨(At_throws_iff a i).1, (At_throws_iff a i).2, ?_⟩
  obtain ⟨x, _, hr⟩ := read_of_lt (p := c.items_) (i := j) (by omega)
  have hi : c.index j = .ok x := hr
  exact ⟨x, hi, by simp [At, hj, hi, bind, Except.bind, pure, Except.pure],
    by simp [AtConst, hj, hi]⟩

/-- Instance of C8: index 0 of the empty array is rejected, index 1 of `{1, 2}`
with capacity 3 is served. -/
theorem C8_At_checked_witness :
    ex12spare.size_ ≤ ex12spare.allocated ∧ 1 < ex12spare.size_ ∧
    ((empty : SimpleVector Int).At 0 = .error .outOfRange ↔
      (empty : SimpleVector Int).size_ ≤ 0) ∧
    ((empty : SimpleVector Int).AtConst 0 = .error .outOfRange ↔
      (empty : SimpleVector Int).size_ ≤ 0) ∧
    ∃ x, ex12spare.index 1 = .ok x ∧ ex12spare.At 1 = .ok (x, ex12spare) ∧
      ex12spare.AtConst 1 = .ok x :=
  ⟨by decide, by decide,
    C8_At_checked (empty : SimpleVector Int) ex12spare 0 1 (by decide) (by decide)⟩


/-- What the copy constructor builds from an array whose live range lies in its
buffer: a buffer of `size` slots (not `capacity` slots) holding the live
elements, with the size and the capacity counter of the source. -/
theorem copy_spec [RawStorage α] [Inhabited α] (a : SimpleVector α)
    (ha : a.size_ ≤ a.allocated) :
    ∃ b, copy a = .ok b ∧ b.size_ = a.size_ ∧ b.capacity_ = a.capacity_ ∧
      b.allocated = a.size_ ∧ b.live = a.live := by
  unfold allocated at ha
  obtain ⟨r, hr, hl, _⟩ := stdFill_spec (ArrayPtr.alloc a.size_ : ArrayPtr α) 0 a.size_
    (default : α) (by omega) (by rw [alloc_length])
  rw [alloc_length] at hl
  obtain ⟨r2, hr2, hl2, hg2⟩ := stdCopy_spec a.items_ 0 a.size_ r 0 (by omega) ha
    (by omega)
  refine ⟨⟨r2, a.size_, a.capacity_⟩, ?_, rfl, rfl, ?_, ?_⟩
  · simp [copy, sized, filled, GetSize, swap, empty, hr, hr2, bind, Except.bind, pure,
      Except.pure]
  · simp [allocated, hl2, hl]
  · apply List.ext_getElem?
    intro i
    rw [live_get, live_get]
    show (if i < a.size_ then r2.cells[i]? else none) = _
    by_cases c : i < a.size_
    · have c2 : 0 ≤ i ∧ i < 0 + (a.size_ - 0) := by omega
      simp [c, hg2 i, c2]
    · simp [c]

/-- C9: the copy constructor allocates `size` slots, not `capacity` slots. The
array built by `SimpleVector<int> a(Reserve(2)); a.PushBack(1);` satisfies the
data-model invariant; its copy reports capacity 2 and owns a buffer of one
slot, so the in-place branch of `PushBack` and of `Insert` on the copy writes
outside the buffer. -/
theorem C9_copy_allocates_size_slots :
    (reserved (SV.Reserve 2) : SimpleVector Int).PushBackMove 1 = .ok exReserved ∧
    exReserved.Valid ∧ exReserved.capacity_ = 2 ∧
    (∃ b, copy exReserved = .ok b ∧ b.GetCapacity = 2 ∧ b.allocated = 1 ∧
      b.size_ < b.capacity_ ∧
      b.PushBackMove 2 = .error .wildAccess ∧
      b.InsertMove 0 (.ext 2) = .error .wildAccess) := by
  refine ⟨rfl, by decide, rfl, ⟨⟨[1]⟩, 1, 2⟩, rfl, rfl, rfl, by decide, rfl, rfl⟩

theorem lexLoop_same (lt : α → α → Bool) (hirr : ∀ x, lt x x = false)
    (A B : ArrayPtr α) :
    ∀ (n i j : Nat), (∀ k, k < n → ∃ x, A.cells[i + k]? = some x ∧ B.cells[j + k]? = some x) →
      lexLoop lt A i B j n n = .ok false := by
  intro n
  induction n with
  | zero => intro i j _; simp [lexLoop]
  | succ n ih =>
    intro i j h
    obtain ⟨x, hx1, hx2⟩ := h 0 (by omega)
    have r1 := read_of_getElem? (p := A) (i := i) hx1
    have r2 := read_of_getElem? (p := B) (i := j) hx2
    have := ih (i + 1) (j + 1) (fun k hk => by
      obtain ⟨y, hy1, hy2⟩ := h (k + 1) (by omega)
      exact ⟨y, by rw [← hy1]; congr 1; omega, by rw [← hy2]; congr 1; omega⟩)
    simp [lexLoop, r1, r2, hirr x, bind, Except.bind, this]

/-- Two arrays with the same size and the same live elements compare equal under
`operator==` when no element is less than itself. -/
theorem equal_of_live_eq (lt : α → α → Bool) (hirr : ∀ x, lt x x = false)
    (a b : SimpleVector α) (ha : a.size_ ≤ a.allocated)
    (hs : b.size_ = a.size_) (hl : b.live = a.live) : equal lt b a = .ok true := by
  have key : ∀ k, k < a.size_ → ∃ x, b.items_.cells[0 + k]? = some x ∧
      a.items_.cells[0 + k]? = some x := by
    intro k hk
    unfold allocated at ha
    have e1 := live_get a k
    have e2 := live_get b k
    rw [hl] at e2
    rw [hs] at e2
    simp only [hk, if_true] at e1 e2
    refine ⟨a.items_.cells[k], ?_, ?_⟩
    · rw [Nat.zero_add, ← e2, e1]; exact List.getElem?_eq_getElem (by omega)
    · rw [Nat.zero_add]; exact List.getElem?_eq_getElem (by omega)
  have h1 : less lt b a = .ok false := by
    unfold less
    rw [hs]
    exact lexLoop_same lt hirr b.items_ a.items_ a.size_ 0 0 key
  have h2 : less lt a b = .ok false := by
    unfold less
    rw [hs]
    exact lexLoop_same lt hirr a.items_ b.items_ a.size_ 0 0
      (fun k hk => by obtain ⟨x, p, q⟩ := key k hk; exact ⟨x, q, p⟩)
  simp [equal, h1, h2, bind, Except.bind, pure, Except.pure]

theorem Heap.buffer_lt (h : Heap α) (k : Nat) (buf : ArrayPtr α)
    (hb : h.buffer (some k) = .ok buf) : k < h.regions.length := by
  by_contra c
  have : h.regions[k]? = none := List.getElem?_eq_none (by omega)
  simp [Heap.buffer, this] at hb

theorem Heap.new_spec [RawStorage α] (h : Heap α) (n : Nat) :
    (h.new n).1.buffer (h.new n).2 = .ok (ArrayPtr.alloc n) ∧ Heap.Keeps h (h.new n).1 ∧
      ((h.new n).2 = none ∨ (h.new n).2 = some h.regions.length) := by
  by_cases c : n = 0
  · subst c
    refine ⟨?_, ?_, Or.inl ?_⟩
    · simp [Heap.new, Heap.buffer, ArrayPtr.null, ArrayPtr.alloc]
    · intro q buf hq
      simpa [Heap.new] using hq
    · simp [Heap.new]
  · refine ⟨?_, ?_, Or.inr ?_⟩
    · simp [Heap.new, c, Heap.buffer]
    · intro q buf hq
      cases q with
      | none => simpa [Heap.new, c, Heap.buffer] using hq
      | some k =>
        have hk := Heap.buffer_lt h k buf hq
        simp only [Heap.new, c, if_false, Heap.buffer] at hq ⊢
        rw [List.getElem?_append_left hk]
        exact hq
    · simp [Heap.new, c]

theorem Heap.update_spec (h : Heap α) (p : Option Nat)
    (f : ArrayPtr α → Except Fault (ArrayPtr α)) (buf buf' : ArrayPtr α)
    (hb : h.buffer p = .ok buf) (hf : f buf = .ok buf')
    (hlen : buf'.cells.length = buf.cells.length) :
    ∃ h', h.update p f = .ok h' ∧ h'.buffer p = .ok buf' ∧
      h'.regions.length = h.regions.length ∧ (p = none → h' = h) ∧
      ∀ q bq, q ≠ p → h.buffer q = .ok bq → h'.buffer q = .ok bq := by
  cases p with
  | none =>
    have e : buf = ArrayPtr.null := by
      simp only [Heap.buffer, Except.ok.injEq] at hb
      exact hb.symm
    have e' : buf' = ArrayPtr.null := by
      subst e
      cases buf' with
      | mk cells =>
        simp only [ArrayPtr.null, List.length_nil, List.length_eq_zero] at hlen
        subst hlen
        rfl
    refine ⟨h, ?_, ?_, rfl, fun _ => rfl, fun q bq _ hq => hq⟩
    · simp [Heap.update, hb, hf, bind, Except.bind, pure, Except.pure]
    · rw [e']
      rfl
  | some k =>
    have hk := Heap.buffer_lt h k buf hb
    refine ⟨⟨h.regions.set k buf'.cells⟩, ?_, ?_, by simp, fun e => Option.noConfusion e, ?_⟩
    · simp [Heap.update, hb, hf, bind, Except.bind, pure, Except.pure]
    · simp [Heap.buffer, hk]
    · intro q bq hne hq
      cases q with
      | none => simpa [Heap.buffer] using hq
      | some m =>
        have hmk : k ≠ m := fun e => hne (by rw [e])
        simp only [Heap.buffer] at hq ⊢
        rw [List.getElem?_set_ne hmk]
        exact hq

/-- The filled constructor in memory builds, behind a pointer that is null or
designates a region the store did not have, the buffer the constructor of the
record builds, and keeps every buffer of the store. -/
theorem filledAt_spec [RawStorage α] (h : Heap α) (n : Nat) (v : α) :
    ∃ h' o items, filledAt h n v = .ok (h', o) ∧
      stdFill (ArrayPtr.alloc n : ArrayPtr α) 0 n v = .ok items ∧
      items.cells.length = n ∧ h'.buffer o.items_ = .ok items ∧ o.size_ = n ∧
      o.capacity_ = n ∧ Heap.Keeps h h' ∧
      (o.items_ = none ∨ o.items_ = some h.regions.length) ∧
      h.regions.length ≤ h'.regions.length := by
  obtain ⟨hnew, hkeep, hptr⟩ := Heap.new_spec (α := α) h n
  obtain ⟨items, hfill, hlen, _⟩ := stdFill_spec (ArrayPtr.alloc n : ArrayPtr α) 0 n v
    (by omega) (by rw [alloc_length])
  obtain ⟨h', hup, hbuf, hrl, hnull, hother⟩ := Heap.update_spec (h.new n).1 (h.new n).2
    (fun buf => stdFill buf 0 n v) _ items hnew hfill hlen
  refine ⟨h', ⟨(h.new n).2, n, n⟩, items, ?_, hfill, by rw [hlen, alloc_length], hbuf, rfl,
    rfl, ?_, hptr, ?_⟩
  · simp [filledAt, hup, bind, Except.bind, pure, Except.pure]
  · intro q bq hq
    have hq' := hkeep q bq hq
    by_cases c : q = (h.new n).2
    · rcases hptr with hp | hp
      · rw [hnull hp]
        exact hq'
      · rw [c, hp] at hq
        have := Heap.buffer_lt h _ bq hq
        omega
    · exact hother q bq c hq'
  · rw [hrl]
    rcases hptr with hp | hp
    · by_cases c : n = 0
      · simp [Heap.new, c]
      · simp [Heap.new, c]
    · by_cases c : n = 0
      · simp [Heap.new, c]
      · simp [Heap.new, c]

theorem Heap.view_ok (h : Heap α) (o : Located) (v : SimpleVector α) :
    h.view o = .ok v ↔
      h.buffer o.items_ = .ok v.items_ ∧ v.size_ = o.size_ ∧ v.capacity_ = o.capacity_ := by
  unfold Heap.view
  cases hb : h.buffer o.items_ with
  | error e => simp [bind, Except.bind]
  | ok buf =>
    cases v with
    | mk items size cap =>
      simp only [bind, Except.bind, pure, Except.pure, Except.ok.injEq, SimpleVector.mk.injEq]
      constructor
      · rintro ⟨h1, h2, h3⟩
        exact ⟨h1, h2.symm, h3.symm⟩
      · rintro ⟨h1, h2, h3⟩
        exact ⟨h1, h2.symm, h3.symm⟩

/-- The copy constructor in memory, run on an object whose live range lies in
its buffer: the object it constructs holds the array that `copy` builds, behind
a pointer that is null or designates a region the store did not have, and every
buffer of the store is as it was. -/
theorem copyAt_spec [RawStorage α] [Inhabited α] (h : Heap α) (a : Located)
    (av : SimpleVector α) (hav : h.view a = .ok av) (ha : av.size_ ≤ av.allocated) :
    ∃ h' b bv, copyAt h a = .ok (h', b) ∧ copy av = .ok bv ∧ h'.view b = .ok bv ∧
      Heap.Keeps h h' ∧ (b.items_ = none ∨ b.items_ = some h.regions.length) ∧
      h.regions.length ≤ h'.regions.length := by
  obtain ⟨hbufa, hsz, hcp⟩ := (Heap.view_ok h a av).mp hav
  unfold allocated at ha
  obtain ⟨h1, o, items1, hfa, hfill, hlen1, hbuf1, hs, hc, hkeep1, hptr, hgrow⟩ :=
    filledAt_spec h a.size_ (default : α)
  have hsrc := hkeep1 _ _ hbufa
  obtain ⟨items2, hcopy, hlen2, _⟩ := stdCopy_spec av.items_ 0 a.size_ items1 0 (by omega)
    (by omega) (by omega)
  obtain ⟨h2, hup, hbuf2, hrl, hnull, hother⟩ := Heap.update_spec h1 o.items_
    (fun dst => stdCopy av.items_ 0 a.size_ dst 0) items1 items2 hbuf1 hcopy hlen2
  refine ⟨h2, { o with capacity_ := a.capacity_ }, ⟨items2, av.size_, av.capacity_⟩, ?_, ?_,
    ?_, ?_, hptr, by omega⟩
  · simp [copyAt, sizedAt, hfa, hsrc, hup, bind, Except.bind, pure, Except.pure]
  · rw [← hsz] at hfill hcopy
    simp [copy, sized, filled, GetSize, swap, empty, hfill, hcopy, bind, Except.bind, pure,
      Except.pure]
  · rw [Heap.view_ok]
    exact ⟨hbuf2, by rw [hsz, hs], hcp⟩
  · intro q bq hq
    have hq1 := hkeep1 q bq hq
    by_cases c : q = o.items_
    · rcases hptr with hp | hp
      · rw [hnull hp]
        exact hq1
      · rw [c, hp] at hq
        have := Heap.buffer_lt h _ bq hq
        omega
    · exact hother q bq c hq1

/-- C10: in a store that holds an array `a` whose live range lies in its buffer
(the empty array included), for an element comparison under which no element
is less than itself, copy construction and copy assignment succeed and yield
an object `b` that is `==` to `a`, has its size and its live elements in order,
and they leave `a` as it was; when an element of the copy of an array `c` is
overwritten afterwards, the copy holds the new value and `c` is as it was. -/
theorem C10_copy_round_trip [RawStorage α] [Inhabited α] (lt : α → α → Bool)
    (h : Heap α) (a c self : Located) (av cv : SimpleVector α) (i : Nat) (v : α)
    (hirr : ∀ x, lt x x = false)
    (hav : h.view a = .ok av) (ha : av.size_ ≤ av.allocated)
    (hcv : h.view c = .ok cv) (hc : cv.size_ ≤ cv.allocated) (hi : i < cv.size_) :
    (∃ h' b bv, copyAt h a = .ok (h', b) ∧ copyAssignAt h self a = .ok (h', b) ∧
      h'.view b = .ok bv ∧ copy av = .ok bv ∧ equal lt bv av = .ok true ∧
      bv.size_ = av.size_ ∧ bv.live = av.live ∧ h'.view a = .ok av) ∧
    (∃ h' b bv, copyThenOverwrite h c i v = .ok (h', b) ∧ h'.view b = .ok bv ∧
      bv.live = cv.live.set i v ∧ h'.view c = .ok cv) := by
  constructor
  · obtain ⟨h', b, bv, hcopyAt, hcopy, hview, hkeep, _, _⟩ := copyAt_spec h a av hav ha
    obtain ⟨bv', hcopy', hs, _, _, hl⟩ := copy_spec av ha
    rw [hcopy] at hcopy'
    cases hcopy'
    refine ⟨h', b, bv, hcopyAt, ?_, hview, hcopy, equal_of_live_eq lt hirr av bv ha hs hl, hs,
      hl, ?_⟩
    · simp [copyAssignAt, hcopyAt, bind, Except.bind, pure, Except.pure]
    · obtain ⟨hb, h2, h3⟩ := (Heap.view_ok h a av).mp hav
      exact (Heap.view_ok h' a av).mpr ⟨hkeep _ _ hb, h2, h3⟩
  · obtain ⟨h1, b, bv, hcopyAt, hcopy, hview, hkeep, hptr, _⟩ := copyAt_spec h c cv hcv hc
    obtain ⟨bv', hcopy', hs, _, hal, hl⟩ := copy_spec cv hc
    rw [hcopy] at hcopy'
    cases hcopy'
    obtain ⟨hbufb, hbs, hbc⟩ := (Heap.view_ok h1 b bv).mp hview
    obtain ⟨hbufc, hcs, hcc⟩ := (Heap.view_ok h c cv).mp hcv
    unfold allocated at hal
    have hlt : i < bv.items_.cells.length := by omega
    obtain ⟨h2, hup, hbuf2, _, _, hother⟩ := Heap.update_spec h1 b.items_
      (fun buf => buf.write i v) bv.items_ ⟨bv.items_.cells.set i v⟩ hbufb
      (write_of_lt v hlt) (by simp)
    refine ⟨h2, b, { bv with items_ := ⟨bv.items_.cells.set i v⟩ }, ?_, ?_, ?_, ?_⟩
    · simp [copyThenOverwrite, hcopyAt, assignAt, hup, bind, Except.bind, pure, Except.pure]
    · exact (Heap.view_ok h2 b _).mpr ⟨hbuf2, hbs, hbc⟩
    · rw [← hl]
      simp only [live]
      rw [List.set_take]
    · have hne : c.items_ ≠ b.items_ := by
        intro e
        rcases hptr with hp | hp
        · rw [hp] at hbufb
          have : bv.items_ = ArrayPtr.null := by
            simp only [Heap.buffer, Except.ok.injEq] at hbufb
            exact hbufb.symm
          rw [this] at hlt
          simp [ArrayPtr.null] at hlt
        · rw [e, hp] at hbufc
          have := Heap.buffer_lt h _ _ hbufc
          omega
      exact (Heap.view_ok h2 c cv).mpr ⟨hother _ _ hne (hkeep _ _ hbufc), hcs, hcc⟩

/-- Instance of C10 for `int` with its `<`: in the store of the examples the
empty array is copied and assigned, and element 1 of the copy of `{1, 2}` is
overwritten with 7. -/
theorem C10_copy_round_trip_witness :
    (∀ x, intLess x x = false) ∧
    exHeap.view exNull = .ok (empty : SimpleVector Int) ∧
    (empty : SimpleVector Int).size_ ≤ (empty : SimpleVector Int).allocated ∧
    exHeap.view exAt0 = .ok ex12spare ∧ ex12spare.size_ ≤ ex12spare.allocated ∧
    1 < ex12spare.size_ ∧
    (∃ h' b bv, copyAt exHeap exNull = .ok (h', b) ∧
      copyAssignAt exHeap exAt1 exNull = .ok (h', b) ∧
      h'.view b = .ok bv ∧ copy (empty : SimpleVector Int) = .ok bv ∧
      equal intLess bv (empty : SimpleVector Int) = .ok true ∧
      bv.size_ = (empty : SimpleVector Int).size_ ∧
      bv.live = (empty : SimpleVector Int).live ∧
      h'.view exNull = .ok (empty : SimpleVector Int)) ∧
    (∃ h' b bv, copyThenOverwrite exHeap exAt0 1 7 = .ok (h', b) ∧ h'.view b = .ok bv ∧
      bv.live = ex12spare.live.set 1 7 ∧ h'.view exAt0 = .ok ex12spare) :=
  have hirr : ∀ x, intLess x x = false := by intro x; simp [intLess]
  ⟨hirr, rfl, by decide, rfl, by decide, by decide,
    C10_copy_round_trip intLess exHeap exNull exAt0 exAt1 (empty : SimpleVector Int) ex12spare
      1 7 hirr rfl (by decide) rfl (by decide) (by decide)⟩

/-- C11: move construction hands the buffer, the size and the capacity of the
source to the new array, whose live elements are the source's former live
elements in order, and leaves the source with size 0 and capacity 0. -/
theorem C11_move_construct (a : SimpleVector α) :
    (moveConstruct a).1.size_ = a.size_ ∧ (moveConstruct a).1.capacity_ = a.capacity_ ∧
    (moveConstruct a).1.live = a.live ∧ (moveConstruct a).1.items_ = a.items_ ∧
    (moveConstruct a).2.GetSize = 0 ∧ (moveConstruct a).2.GetCapacity = 0 ∧
    (moveConstruct a).2.allocated = 0 :=
  ⟨rfl, rfl, rfl, rfl, rfl, rfl, rfl⟩

/-- The defaulted move assignment leaves the counters of its source as they
were, while the source no longer owns a buffer. -/
theorem moveAssign_source (self rhs : SimpleVector α) :
    (moveAssign self rhs).1 = rhs ∧
    (moveAssign self rhs).2.GetSize = rhs.size_ ∧
    (moveAssign self rhs).2.GetCapacity = rhs.capacity_ ∧
    (moveAssign self rhs).2.allocated = 0 :=
  ⟨rfl, rfl, rfl, rfl⟩

/-- C12: the defaulted move assignment does not reset its source. After
`SimpleVector<int> a{1, 2}; SimpleVector<int> b{1, 2, 3, 4}; b = std::move(a);`
the target holds `{1, 2}`, and the source still reports size 2 and capacity 2
although it owns no buffer; the move constructor resets its source to 0 and 0. -/
theorem C12_move_assign_keeps_source_counters :
    (moveAssign ex1234 ex12).1 = ex12 ∧
    (moveAssign ex1234 ex12).2.GetSize = 2 ∧
    (moveAssign ex1234 ex12).2.GetCapacity = 2 ∧
    (moveAssign ex1234 ex12).2.allocated = 0 ∧
    (moveConstruct ex12).2.GetSize = 0 ∧ (moveConstruct ex12).2.GetCapacity = 0 := by
  refine ⟨rfl, rfl, rfl, rfl, rfl, rfl⟩

/-- What the sized constructor builds: `n` slots, all holding the default
value, with size and capacity `n`. -/
theorem filled_spec [RawStorage α] (n : Nat) (v : α) :
    ∃ b, (filled n v : Except Fault (SimpleVector α)) = .ok b ∧ b.size_ = n ∧
      b.capacity_ = n ∧ b.allocated = n ∧ ∀ i, i < n → b.items_.cells[i]? = some v := by
  obtain ⟨r, hr, hl, hg⟩ := stdFill_spec (ArrayPtr.alloc n : ArrayPtr α) 0 n v
    (by omega) (by rw [alloc_length])
  rw [alloc_length] at hl
  refine ⟨⟨r, n, n⟩, ?_, rfl, rfl, hl, ?_⟩
  · simp [filled, hr, bind, Except.bind, pure, Except.pure]
  · intro i hi
    have c : 0 ≤ i ∧ i < n := by omega
    simp [hg i, c]

theorem sized_spec [RawStorage α] [Inhabited α] (n : Nat) :
    ∃ b, (sized n : Except Fault (SimpleVector α)) = .ok b ∧ b.size_ = n ∧
      b.capacity_ = n ∧ b.allocated = n ∧
      ∀ i, i < n → b.items_.cells[i]? = some default := by
  obtain ⟨b, hb, hs, hc, ha, hg⟩ := filled_spec (α := α) n default
  refine ⟨b, ?_, hs, hc, ha, hg⟩
  simp [sized, hb, swap, empty, bind, Except.bind, pure, Except.pure]

/-- What `Reserve` does when it has to grow the buffer. -/
theorem Reserve_grow_spec [RawStorage α] [Inhabited α] (a : SimpleVector α) (n : Nat)
    (hv : a.Valid) (hn : a.capacity_ < n) :
    ∃ b, a.Reserve n = .ok b ∧ b.size_ = a.size_ ∧ b.capacity_ = n ∧ b.allocated = n ∧
      b.live = a.live ∧ ∀ i, i < a.size_ → b.items_.cells[i]? = a.items_.cells[i]? := by
  obtain ⟨h1, h2⟩ := hv
  unfold allocated at h2
  obtain ⟨s, hs, hss, hsc, hsa, _⟩ := sized_spec (α := α) n
  unfold allocated at hsa
  obtain ⟨r, hr, hl, hg⟩ := stdCopy_spec a.items_ 0 a.size_ s.items_ 0 (by omega) (by omega)
    (by omega)
  refine ⟨⟨r, a.size_, n⟩, ?_, rfl, rfl, ?_, ?_, ?_⟩
  · unfold Reserve
    rw [if_pos hn]
    simp [hs, hr, hsc, swap, bind, Except.bind, pure, Except.pure]
  · simp [allocated, hl, hsa]
  · apply List.ext_getElem?
    intro i
    rw [live_get, live_get]
    show (if i < a.size_ then r.cells[i]? else none) = _
    by_cases c : i < a.size_
    · have c2 : 0 ≤ i ∧ i < 0 + (a.size_ - 0) := by omega
      simp [c, hg i, c2]
    · simp [c]
  · intro i hi
    have c2 : 0 ≤ i ∧ i < 0 + (a.size_ - 0) := by omega
    show r.cells[i]? = _
    rw [hg i, if_pos c2]
    simp

/-- C13: `Reserve(n)` with `n <= capacity` returns the array as it is, buffer
included; `Reserve(m)` with `m > capacity`, on an array that satisfies the
data-model invariant, succeeds, leaves the array with a buffer of exactly `m`
slots and capacity `m`, and keeps the size and the live elements in order. -/
theorem C13_Reserve_postcondition [RawStorage α] [Inhabited α] (a : SimpleVector α)
    (n m : Nat) (hv : a.Valid) (hn : n ≤ a.capacity_) (hm : a.capacity_ < m) :
    a.Reserve n = .ok a ∧
    ∃ b, a.Reserve m = .ok b ∧ b.capacity_ = m ∧ b.allocated = m ∧ b.size_ = a.size_ ∧
      b.live = a.live ∧ ∀ i, i < a.size_ → b.index i = a.index i := by
  constructor
  · have : ¬ a.capacity_ < n := by omega
    simp [Reserve, this, pure, Except.pure]
  · obtain ⟨b, hb, hs, hc, hal, hl, hg⟩ := Reserve_grow_spec a m hv hm
    exact ⟨b, hb, hc, hal, hs, hl, fun i hi => index_congr a b i (hg i hi)⟩

/-- Instance of C13 on `{1, 2}` with capacity 3: a request for 2 slots and a
request for 5 slots. -/
theorem C13_Reserve_postcondition_witness :
    ex12spare.Valid ∧ 2 ≤ ex12spare.capacity_ ∧ ex12spare.capacity_ < 5 ∧
    ex12spare.Reserve 2 = .ok ex12spare ∧
    ∃ b, ex12spare.Reserve 5 = .ok b ∧ b.capacity_ = 5 ∧ b.allocated = 5 ∧
      b.size_ = ex12spare.size_ ∧ b.live = ex12spare.live ∧
      ∀ i, i < ex12spare.size_ → b.index i = ex12spare.index i :=
  ⟨by decide, by decide, by decide,
    C13_Reserve_postcondition ex12spare 2 5 (by decide) (by decide) (by decide)⟩

/-- What `Clear` does, on every array. -/
theorem Clear_spec [RawStorage α] [Inhabited α] (a : SimpleVector α) :
    ∃ b, a.Clear = .ok b ∧ b.size_ = 0 ∧ b.capacity_ = a.capacity_ := by
  unfold Clear
  by_cases c1 : 0 < a.size_
  · exact ⟨{ a with size_ := 0 }, by simp [Resize, c1, pure, Except.pure], rfl, rfl⟩
  · have hs : a.size_ = 0 := by omega
    by_cases c2 : 0 < a.capacity_
    · refine ⟨{ a with size_ := 0 }, ?_, rfl, rfl⟩
      simp [Resize, c2, hs, stdFill, fillLoop, bind, Except.bind, pure, Except.pure]
    · have hc : a.capacity_ = 0 := by omega
      refine ⟨⟨ArrayPtr.alloc 0, 0, 0⟩, ?_, rfl, hc.symm⟩
      simp [Resize, hs, hc, stdFill, fillLoop, stdCopy, copyLoop, bind, Except.bind, pure,
        Except.pure]

/-- C19: `Clear()` succeeds on every array, an empty one and one with capacity 0
included; afterwards the size is 0, `IsEmpty()` is true and the capacity is the
one before the call. -/
theorem C19_Clear_keeps_capacity [RawStorage α] [Inhabited α] (a : SimpleVector α) :
    ∃ b, a.Clear = .ok b ∧ b.size_ = 0 ∧ b.IsEmpty = true ∧ b.capacity_ = a.capacity_ := by
  obtain ⟨b, h, hs, hc⟩ := Clear_spec a
  exact ⟨b, h, hs, by simp [IsEmpty, hs], hc⟩

/-- What the initializer-list constructor builds. -/
theorem initList_spec [RawStorage α] [Inhabited α] (L : List α) :
    ∃ b, (initList L : Except Fault (SimpleVector α)) = .ok b ∧ b.size_ = L.length ∧
      b.capacity_ = L.length ∧ b.allocated = L.length ∧ b.items_.cells = L := by
  obtain ⟨s, hs, hss, hsc, hsa, _⟩ := sized_spec (α := α) L.length
  unfold allocated at hsa
  obtain ⟨r, hr, hl, hg⟩ := stdCopy_spec (⟨L⟩ : ArrayPtr α) 0 L.length s.items_ 0 (by omega)
    (le_refl _) (by omega)
  refine ⟨⟨r, L.length, L.length⟩, ?_, rfl, rfl, ?_, ?_⟩
  · simp [initList, hs, hr, hss, hsc, swap, empty, bind, Except.bind, pure, Except.pure]
  · simp [allocated, hl, hsa]
  · apply List.ext_getElem?
    intro i
    rw [hg i]
    by_cases c : i < L.length
    · have c2 : 0 ≤ i ∧ i < 0 + (L.length - 0) := by omega
      rw [if_pos c2]
      simp
    · have c2 : ¬ (0 ≤ i ∧ i < 0 + (L.length - 0)) := by omega
      have h1 : s.items_.cells[i]? = none := List.getElem?_eq_none (by omega)
      have h2 : L[i]? = none := List.getElem?_eq_none (by omega)
      simp [c2, h1, h2]

theorem live_replicate (b : SimpleVector α) (n : Nat) (v : α) (hs : b.size_ = n)
    (hg : ∀ i, i < n → b.items_.cells[i]? = some v) : b.live = List.replicate n v := by
  apply List.ext_getElem?
  intro i
  rw [live_get, hs]
  by_cases c : i < n
  · simp [c, hg i c, List.getElem?_replicate]
  · simp [c, List.getElem?_replicate]

/-- C18: the sized constructor yields size = capacity = `n` with every element
the default value; the filled constructor yields size = capacity = `n` with
every element `v`; the initializer-list constructor yields size = capacity =
`length(L)` with the elements of `L` in order; `SimpleVector(Reserve(n))`
yields capacity `n` and size 0.  In all four the capacity is the number of
slots of the buffer the array owns. -/
theorem C18_constructor_postconditions [RawStorage α] [Inhabited α] (n : Nat) (v : α)
    (L : List α) :
    (∃ b, (sized n : Except Fault (SimpleVector α)) = .ok b ∧ b.GetSize = n ∧
      b.GetCapacity = n ∧ b.allocated = n ∧ b.live = List.replicate n default ∧
      ∀ i, i < n → b.index i = .ok default) ∧
    (∃ b, (filled n v : Except Fault (SimpleVector α)) = .ok b ∧ b.GetSize = n ∧
      b.GetCapacity = n ∧ b.allocated = n ∧ b.live = List.replicate n v ∧
      ∀ i, i < n → b.index i = .ok v) ∧
    (∃ b, (initList L : Except Fault (SimpleVector α)) = .ok b ∧ b.GetSize = L.length ∧
      b.GetCapacity = L.length ∧ b.allocated = L.length ∧ b.live = L) ∧
    (reserved (SV.Reserve n) : SimpleVector α).GetCapacity = n ∧
    (reserved (SV.Reserve n) : SimpleVector α).allocated = n ∧
    (reserved (SV.Reserve n) : SimpleVector α).GetSize = 0 ∧
    (reserved (SV.Reserve n) : SimpleVector α).live = [] := by
  refine ⟨?_, ?_, ?_, rfl, ?_, rfl, ?_⟩
  · obtain ⟨b, hb, hs, hc, ha, hg⟩ := sized_spec (α := α) n
    exact ⟨b, hb, hs, hc, ha, live_replicate b n default hs hg,
      fun i hi => index_eq b i default (hg i hi)⟩
  · obtain ⟨b, hb, hs, hc, ha, hg⟩ := filled_spec (α := α) n v
    exact ⟨b, hb, hs, hc, ha, live_replicate b n v hs hg,
      fun i hi => index_eq b i v (hg i hi)⟩
  · obtain ⟨b, hb, hs, hc, ha, hcells⟩ := initList_spec (α := α) L
    refine ⟨b, hb, hs, hc, ha, ?_⟩
    simp [live, hcells, hs]
  · simp [reserved, allocated, alloc_length, ReserveProxyObj.GetNewCapacity, SV.Reserve]
  · simp [reserved, live]

theorem lexLoop_eq_lexLess (lt : α → α → Bool) (A B : ArrayPtr α) :
    ∀ (n1 n2 i j : Nat), i + n1 ≤ A.cells.length → j + n2 ≤ B.cells.length →
      lexLoop lt A i B j n1 n2 =
        .ok (lexLess lt ((A.cells.drop i).take n1) ((B.cells.drop j).take n2)) := by
  intro n1
  induction n1 with
  | zero =>
    intro n2 i j _ h2
    cases n2 with
    | zero => simp [lexLoop, lexLess]
    | succ n2 =>
      have hj : j < B.cells.length := by omega
      rw [List.drop_eq_getElem_cons hj]
      simp [lexLoop, lexLess, hj]
  | succ n1 ih =>
    intro n2 i j h1 h2
    have hi : i < A.cells.length := by omega
    cases n2 with
    | zero =>
      rw [List.drop_eq_getElem_cons hi]
      simp [lexLoop, lexLess]
    | succ n2 =>
      have hj : j < B.cells.length := by omega
      have r1 := read_of_getElem? (p := A) (i := i) (List.getElem?_eq_getElem hi)
      have r2 := read_of_getElem? (p := B) (i := j) (List.getElem?_eq_getElem hj)
      rw [List.drop_eq_getElem_cons hi, List.drop_eq_getElem_cons hj]
      simp only [lexLoop, r1, r2, bind, Except.bind, List.take_succ_cons, lexLess, pure,
        Except.pure]
      rw [ih n2 (i + 1) (j + 1) (by omega) (by omega)]
      split_ifs <;> rfl

/-- On arrays whose live range lies in their buffer `operator<` returns the
list-level comparison of the two live sequences. -/
theorem less_eq_lexLess (lt : α → α → Bool) (a b : SimpleVector α)
    (ha : a.size_ ≤ a.allocated) (hb : b.size_ ≤ b.allocated) :
    less lt a b = .ok (lexLess lt a.live b.live) := by
  unfold allocated at ha hb
  have := lexLoop_eq_lexLess lt a.items_ b.items_ a.size_ b.size_ 0 0 (by omega) (by omega)
  simpa [less, live] using this


theorem lexLess_asymm (lt : α → α → Bool) (hasym : ∀ x y, lt x y = true → lt y x = false) :
    ∀ l1 l2 : List α, lexLess lt l1 l2 = true → lexLess lt l2 l1 = false := by
  intro l1
  induction l1 with
  | nil =>
    intro l2 _
    cases l2 <;> simp [lexLess]
  | cons x xs ih =>
    intro l2 h
    cases l2 with
    | nil => simp [lexLess] at h
    | cons y ys =>
      simp only [lexLess] at h ⊢
      by_cases c1 : lt x y = true
      · simp [c1, hasym x y c1]
      · have c1' : lt x y = false := by simpa using c1
        by_cases c2 : lt y x = true
        · simp [c1', c2] at h
        · have c2' : lt y x = false := by simpa using c2
          simp only [c1', c2', Bool.false_eq_true, if_false] at h ⊢
          exact ih ys h

/-- Neither sequence is less than the other exactly when they have the same
length and corresponding elements are unordered. -/
theorem lexLess_neither (lt : α → α → Bool) :
    ∀ l1 l2 : List α, (lexLess lt l1 l2 = false ∧ lexLess lt l2 l1 = false) ↔
      List.Forall₂ (fun x y => lt x y = false ∧ lt y x = false) l1 l2 := by
  intro l1
  induction l1 with
  | nil =>
    intro l2
    cases l2 <;> simp [lexLess]
  | cons x xs ih =>
    intro l2
    cases l2 with
    | nil => simp [lexLess]
    | cons y ys =>
      simp only [lexLess, List.forall₂_cons]
      by_cases c1 : lt x y = true
      · simp [c1]
      · have c1' : lt x y = false := by simpa using c1
        by_cases c2 : lt y x = true
        · simp [c1', c2]
        · have c2' : lt y x = false := by simpa using c2
          simp only [c1', c2', Bool.false_eq_true, if_false, and_self, true_and]
          exact ih ys

theorem forall₂_unordered_iff_eq (lt : α → α → Bool) (hirr : ∀ x, lt x x = false)
    (htri : ∀ x y, lt x y = false → lt y x = false → x = y) (l1 l2 : List α) :
    List.Forall₂ (fun x y => lt x y = false ∧ lt y x = false) l1 l2 ↔ l1 = l2 := by
  constructor
  · intro h
    induction h with
    | nil => rfl
    | cons hxy _ ih => rw [htri _ _ hxy.1 hxy.2, ih]
  · intro h
    subst h
    induction l1 with
    | nil => exact List.Forall₂.nil
    | cons x xs ih => exact List.Forall₂.cons ⟨hirr x, hirr x⟩ ih

/-- The list-level comparison is the lexicographic one: the first sequence is
less when it runs out first while all compared pairs are unordered, or when at
the first pair that is ordered its element is the smaller one. -/
theorem lexLess_iff (lt : α → α → Bool) :
    ∀ l1 l2 : List α, lexLess lt l1 l2 = true ↔
      (l1.length < l2.length ∧
        ∀ (i : Nat) (x y : α), l1[i]? = some x → l2[i]? = some y →
          (lt x y = false ∧ lt y x = false)) ∨
      (∃ (i : Nat) (x y : α), l1[i]? = some x ∧ l2[i]? = some y ∧ lt x y = true ∧
        ∀ j : Nat, j < i → ∀ u w : α, l1[j]? = some u → l2[j]? = some w →
          (lt u w = false ∧ lt w u = false)) := by
  intro l1
  induction l1 with
  | nil =>
    intro l2
    cases l2 <;> simp [lexLess]
  | cons x xs ih =>
    intro l2
    cases l2 with
    | nil => simp [lexLess]
    | cons y ys =>
      simp only [lexLess]
      by_cases c1 : lt x y = true
      · simp only [c1, if_true, true_iff]
        exact Or.inr ⟨0, x, y, List.getElem?_cons_zero, List.getElem?_cons_zero, c1, fun j hj => absurd hj (Nat.not_lt_zero j)⟩
      · have c1' : lt x y = false := by simpa using c1
        by_cases c2 : lt y x = true
        · simp only [c1', c2, Bool.false_eq_true, if_false, if_true, false_iff]
          rintro (⟨_, h⟩ | ⟨i, u, w, h1, h2, h3, h4⟩)
          · have := (h 0 x y List.getElem?_cons_zero List.getElem?_cons_zero).2
            rw [c2] at this
            exact Bool.noConfusion this
          · cases i with
            | zero =>
              simp only [List.getElem?_cons_zero, Option.some.injEq] at h1 h2
              subst h1 h2
              rw [c1'] at h3
              exact Bool.noConfusion h3
            | succ i =>
              have := (h4 0 (Nat.succ_pos i) x y List.getElem?_cons_zero List.getElem?_cons_zero).2
              rw [c2] at this
              exact Bool.noConfusion this
        · have c2' : lt y x = false := by simpa using c2
          simp only [c1', c2', Bool.false_eq_true, if_false]
          rw [ih ys]
          constructor
          · rintro (⟨hl, h⟩ | ⟨i, u, w, h1, h2, h3, h4⟩)
            · refine Or.inl ⟨by simpa using hl, ?_⟩
              intro i u w h1 h2
              cases i with
              | zero =>
                simp only [List.getElem?_cons_zero, Option.some.injEq] at h1 h2
                subst h1 h2
                exact ⟨c1', c2'⟩
              | succ i => exact h i u w (by simpa using h1) (by simpa using h2)
            · refine Or.inr ⟨i + 1, u, w, by simpa using h1, by simpa using h2, h3, ?_⟩
              intro j hj u' w' h1' h2'
              cases j with
              | zero =>
                simp only [List.getElem?_cons_zero, Option.some.injEq] at h1' h2'
                subst h1' h2'
                exact ⟨c1', c2'⟩
              | succ j =>
                exact h4 j (by omega) u' w' (by simpa using h1') (by simpa using h2')
          · rintro (⟨hl, h⟩ | ⟨i, u, w, h1, h2, h3, h4⟩)
            · refine Or.inl ⟨by simpa using hl, ?_⟩
              intro i u w h1 h2
              exact h (i + 1) u w (by simpa using h1) (by simpa using h2)
            · cases i with
              | zero =>
                simp only [List.getElem?_cons_zero, Option.some.injEq] at h1 h2
                subst h1 h2
                rw [c1'] at h3
                exact Bool.noConfusion h3
              | succ i =>
                refine Or.inr ⟨i, u, w, by simpa using h1, by simpa using h2, h3, ?_⟩
                intro j hj u' w' h1' h2'
                exact h4 (j + 1) (by omega) u' w' (by simpa using h1') (by simpa using h2')


theorem lexLess_iff_eq (lt : α → α → Bool) (hirr : ∀ x, lt x x = false)
    (htri : ∀ x y, lt x y = false → lt y x = false → x = y) (l1 l2 : List α) :
    lexLess lt l1 l2 = true ↔
      (l1.length < l2.length ∧ ∀ i : Nat, i < l1.length → l1[i]? = l2[i]?) ∨
      (∃ (i : Nat) (x y : α), l1[i]? = some x ∧ l2[i]? = some y ∧ x ≠ y ∧ lt x y = true ∧
        ∀ j : Nat, j < i → l1[j]? = l2[j]?) := by
  have lt_of_some : ∀ (l : List α) (i : Nat) (x : α), l[i]? = some x → i < l.length := by
    intro l i x h
    exact (List.getElem?_eq_some.mp h).1
  have same : ∀ (k : Nat), k < l1.length → k < l2.length →
      (∀ u w : α, l1[k]? = some u → l2[k]? = some w → (lt u w = false ∧ lt w u = false)) →
      l1[k]? = l2[k]? := by
    intro k h1 h2 h
    have e1 := List.getElem?_eq_getElem h1
    have e2 := List.getElem?_eq_getElem h2
    have := h _ _ e1 e2
    rw [e1, e2, htri _ _ this.1 this.2]
  have unord : ∀ (k : Nat) (u w : α), l1[k]? = l2[k]? → l1[k]? = some u → l2[k]? = some w →
      (lt u w = false ∧ lt w u = false) := by
    intro k u w h h1 h2
    rw [h, h2] at h1
    have : w = u := by simpa using h1
    subst this
    exact ⟨hirr w, hirr w⟩
  rw [lexLess_iff]
  constructor
  · rintro (⟨hl, h⟩ | ⟨i, x, y, h1, h2, h3, h4⟩)
    · exact Or.inl ⟨hl, fun i hi => same i hi (by omega) (h i)⟩
    · refine Or.inr ⟨i, x, y, h1, h2, ?_, h3, ?_⟩
      · intro hxy
        subst hxy
        rw [hirr x] at h3
        exact Bool.noConfusion h3
      · intro j hj
        have i1 := lt_of_some l1 i x h1
        have i2 := lt_of_some l2 i y h2
        exact same j (by omega) (by omega) (h4 j hj)
  · rintro (⟨hl, h⟩ | ⟨i, x, y, h1, h2, _, h3, h4⟩)
    · refine Or.inl ⟨hl, ?_⟩
      intro i x y h1 h2
      exact unord i x y (h i (lt_of_some l1 i x h1)) h1 h2
    · exact Or.inr ⟨i, x, y, h1, h2, h3, fun j hj u w => unord j u w (h4 j hj)⟩

/-- The values of the six relational operators on two arrays whose live ranges
lie in their buffers, in terms of the two list-level comparisons. -/
theorem operators_eval (lt : α → α → Bool) (a b : SimpleVector α)
    (ha : a.size_ ≤ a.allocated) (hb : b.size_ ≤ b.allocated) :
    less lt a b = .ok (lexLess lt a.live b.live) ∧
    less lt b a = .ok (lexLess lt b.live a.live) ∧
    equal lt a b = .ok (!lexLess lt a.live b.live && !lexLess lt b.live a.live) ∧
    notEqual lt a b = .ok (!(!lexLess lt a.live b.live && !lexLess lt b.live a.live)) ∧
    lessEq lt a b = .ok ((!lexLess lt a.live b.live && !lexLess lt b.live a.live) ||
      lexLess lt a.live b.live) ∧
    greater lt a b = .ok (!((!lexLess lt a.live b.live && !lexLess lt b.live a.live) ||
      lexLess lt a.live b.live)) ∧
    greaterEq lt a b = .ok (!lexLess lt a.live b.live) := by
  have h1 := less_eq_lexLess lt a b ha hb
  have h2 := less_eq_lexLess lt b a hb ha
  have he : equal lt a b =
      .ok (!lexLess lt a.live b.live && !lexLess lt b.live a.live) := by
    simp only [equal, h1, h2, bind, Except.bind, pure, Except.pure]
    cases lexLess lt a.live b.live <;> simp
  have hle : lessEq lt a b = .ok ((!lexLess lt a.live b.live && !lexLess lt b.live a.live) ||
      lexLess lt a.live b.live) := by
    simp only [lessEq, he, h1, bind, Except.bind, pure, Except.pure]
    cases lexLess lt a.live b.live <;> cases lexLess lt b.live a.live <;> simp
  refine ⟨h1, h2, he, ?_, hle, ?_, ?_⟩
  · simp only [notEqual, he, bind, Except.bind, pure, Except.pure]
  · simp only [greater, hle, bind, Except.bind, pure, Except.pure]
  · simp only [greaterEq, h1, bind, Except.bind, pure, Except.pure]

theorem live_eq_iff (a b : SimpleVector α) (ha : a.size_ ≤ a.allocated)
    (hb : b.size_ ≤ b.allocated) :
    a.live = b.live ↔ a.size_ = b.size_ ∧ ∀ i, i < a.size_ → a.index i = b.index i := by
  have la := live_length a ha
  have lb := live_length b hb
  unfold allocated at ha hb
  constructor
  · intro h
    have hs : a.size_ = b.size_ := by rw [← la, ← lb, h]
    refine ⟨hs, fun i hi => ?_⟩
    apply index_congr
    have e1 := live_get a i
    have e2 := live_get b i
    rw [h] at e1
    rw [e1] at e2
    have hi' : i < b.size_ := by omega
    simpa [hi, hi'] using e2
  · rintro ⟨hs, h⟩
    apply List.ext_getElem?
    intro i
    rw [live_get, live_get, ← hs]
    by_cases c : i < a.size_
    · obtain ⟨x, hx, rx⟩ := read_of_lt (p := a.items_) (i := i) (by omega)
      obtain ⟨y, hy, ry⟩ := read_of_lt (p := b.items_) (i := i) (by omega)
      have := h i c
      simp only [index, rx, ry, Except.ok.injEq] at this
      simp [c, hx, hy, this]
    · simp [c]


/-- C14: for an element `<` that is irreflexive and under which two elements
with neither less than the other are the same (a strict total order is both),
`a == b` is true exactly when the sizes agree and `a[i]` equals `b[i]` at every
`i < size`; the capacities play no part in the result. -/
theorem C14_equal_is_elementwise (lt : α → α → Bool) (a b : SimpleVector α)
    (hirr : ∀ x, lt x x = false) (htri : ∀ x y, lt x y = false → lt y x = false → x = y)
    (ha : a.size_ ≤ a.allocated) (hb : b.size_ ≤ b.allocated) :
    ∃ r, equal lt a b = .ok r ∧
      (r = true ↔ a.size_ = b.size_ ∧ ∀ i, i < a.size_ → a.index i = b.index i) ∧
      ∀ c d, equal lt { a with capacity_ := c } { b with capacity_ := d } = equal lt a b := by
  obtain ⟨_, _, he, _⟩ := operators_eval lt a b ha hb
  refine ⟨_, he, ?_, fun c d => rfl⟩
  rw [← live_eq_iff a b ha hb, ← forall₂_unordered_iff_eq lt hirr htri, ← lexLess_neither]
  cases lexLess lt a.live b.live <;> cases lexLess lt b.live a.live <;> simp

/-- Instance of C14 for `int`: `{1, 2}` with capacity 2 against `{1, 2}` with
capacity 3. -/
theorem C14_equal_is_elementwise_witness :
    (∀ x, intLess x x = false) ∧ (∀ x y, intLess x y = false → intLess y x = false → x = y) ∧
    ex12.size_ ≤ ex12.allocated ∧ ex12spare.size_ ≤ ex12spare.allocated ∧
    ∃ r, equal intLess ex12 ex12spare = .ok r ∧
      (r = true ↔ ex12.size_ = ex12spare.size_ ∧
        ∀ i, i < ex12.size_ → ex12.index i = ex12spare.index i) ∧
      ∀ c d, equal intLess { ex12 with capacity_ := c } { ex12spare with capacity_ := d } =
        equal intLess ex12 ex12spare :=
  have hirr : ∀ x, intLess x x = false := by intro x; simp [intLess]
  have htri : ∀ x y, intLess x y = false → intLess y x = false → x = y := by
    intro x y h1 h2
    simp only [intLess, decide_eq_false_iff_not, not_lt] at h1 h2
    omega
  ⟨hirr, htri, by decide, by decide,
    C14_equal_is_elementwise intLess ex12 ex12spare hirr htri (by decide) (by decide)⟩

/-- C15: on arrays whose live ranges lie in their buffers `a < b` is true exactly
when `a` runs out first with all `a.size()` corresponding elements equal, or at
the first index where the elements differ `a[i] < b[i]`.  Two elements count as
equal here when neither is less than the other, the only element comparison the
code makes; when `<` is irreflexive and such elements are the same (a strict
total order) this is `=`, and the second form below states the claim with `=`
and `≠`.  The four examples of the spec hold for `int`. -/
theorem C15_less_is_lexicographic (lt : α → α → Bool) (a b : SimpleVector α)
    (ha : a.size_ ≤ a.allocated) (hb : b.size_ ≤ b.allocated) :
    (∃ r, less lt a b = .ok r ∧
      (r = true ↔
        (a.size_ < b.size_ ∧
          ∀ (i : Nat) (x y : α), a.live[i]? = some x → b.live[i]? = some y →
            (lt x y = false ∧ lt y x = false)) ∨
        (∃ (i : Nat) (x y : α), a.live[i]? = some x ∧ b.live[i]? = some y ∧ lt x y = true ∧
          ∀ j : Nat, j < i → ∀ u w : α, a.live[j]? = some u → b.live[j]? = some w →
            (lt u w = false ∧ lt w u = false))) ∧
      ((∀ x, lt x x = false) → (∀ x y, lt x y = false → lt y x = false → x = y) →
        (r = true ↔
          (a.size_ < b.size_ ∧ ∀ i : Nat, i < a.size_ → a.live[i]? = b.live[i]?) ∨
          (∃ (i : Nat) (x y : α), a.live[i]? = some x ∧ b.live[i]? = some y ∧ x ≠ y ∧
            lt x y = true ∧ ∀ j : Nat, j < i → a.live[j]? = b.live[j]?)))) ∧
    less intLess ex123 ex124 = .ok true ∧ less intLess ex12 ex123 = .ok true ∧
    equal intLess ex123 ex123 = .ok true ∧ greater intLess ex2 ex199 = .ok true := by
  refine ⟨⟨_, less_eq_lexLess lt a b ha hb, ?_, ?_⟩, rfl, rfl, rfl, rfl⟩
  · have := lexLess_iff lt a.live b.live
    rw [live_length a ha, live_length b hb] at this
    exact this
  · intro hirr htri
    have := lexLess_iff_eq lt hirr htri a.live b.live
    rw [live_length a ha, live_length b hb] at this
    exact this

/-- Instance of C15 for `int` on `{1, 2, 3}` and `{1, 2, 4}`. -/
theorem C15_less_is_lexicographic_witness :
    ex123.size_ ≤ ex123.allocated ∧ ex124.size_ ≤ ex124.allocated ∧
    (∃ r, less intLess ex123 ex124 = .ok r ∧
      (r = true ↔
        (ex123.size_ < ex124.size_ ∧
          ∀ (i : Nat) (x y : Int), ex123.live[i]? = some x → ex124.live[i]? = some y →
            (intLess x y = false ∧ intLess y x = false)) ∨
        (∃ (i : Nat) (x y : Int), ex123.live[i]? = some x ∧ ex124.live[i]? = some y ∧
          intLess x y = true ∧
          ∀ j : Nat, j < i → ∀ u w : Int, ex123.live[j]? = some u → ex124.live[j]? = some w →
            (intLess u w = false ∧ intLess w u = false))) ∧
      ((∀ x, intLess x x = false) →
        (∀ x y, intLess x y = false → intLess y x = false → x = y) →
        (r = true ↔
          (ex123.size_ < ex124.size_ ∧
            ∀ i : Nat, i < ex123.size_ → ex123.live[i]? = ex124.live[i]?) ∨
          (∃ (i : Nat) (x y : Int), ex123.live[i]? = some x ∧ ex124.live[i]? = some y ∧
            x ≠ y ∧ intLess x y = true ∧
            ∀ j : Nat, j < i → ex123.live[j]? = ex124.live[j]?)))) ∧
    less intLess ex123 ex124 = .ok true ∧ less intLess ex12 ex123 = .ok true ∧
    equal intLess ex123 ex123 = .ok true ∧ greater intLess ex2 ex199 = .ok true :=
  ⟨by decide, by decide,
    C15_less_is_lexicographic intLess ex123 ex124 (by decide) (by decide)⟩

/-- C20: for an asymmetric element `<`, on arrays whose live ranges lie in their
buffers, the six operators succeed and agree with each other: exactly one of
`a < b`, `a == b`, `a > b` is true; `a > b` iff `b < a`; `a <= b` iff not
`b < a`; `a >= b` iff not `a < b`; `a != b` iff not `a == b`. -/
theorem C20_operators_consistent (lt : α → α → Bool) (a b : SimpleVector α)
    (hasym : ∀ x y, lt x y = true → lt y x = false)
    (ha : a.size_ ≤ a.allocated) (hb : b.size_ ≤ b.allocated) :
    ∃ l e g le ge ne l', less lt a b = .ok l ∧ equal lt a b = .ok e ∧
      greater lt a b = .ok g ∧ lessEq lt a b = .ok le ∧ greaterEq lt a b = .ok ge ∧
      notEqual lt a b = .ok ne ∧ less lt b a = .ok l' ∧
      ((l = true ∧ e = false ∧ g = false) ∨ (l = false ∧ e = true ∧ g = false) ∨
        (l = false ∧ e = false ∧ g = true)) ∧
      (g = true ↔ l' = true) ∧ (le = true ↔ ¬ l' = true) ∧ (ge = true ↔ ¬ l = true) ∧
      (ne = true ↔ ¬ e = true) := by
  obtain ⟨h1, h2, h3, h4, h5, h6, h7⟩ := operators_eval lt a b ha hb
  have hx := lexLess_asymm lt hasym a.live b.live
  refine ⟨_, _, _, _, _, _, _, h1, h3, h6, h5, h7, h4, h2, ?_⟩
  cases hp : lexLess lt a.live b.live <;> cases hq : lexLess lt b.live a.live <;>
    simp [hp, hq] at hx ⊢

/-- Instance of C20 for `int` on `{2}` and `{1, 9, 9}`. -/
theorem C20_operators_consistent_witness :
    (∀ x y, intLess x y = true → intLess y x = false) ∧
    ex2.size_ ≤ ex2.allocated ∧ ex199.size_ ≤ ex199.allocated ∧
    ∃ l e g le ge ne l', less intLess ex2 ex199 = .ok l ∧ equal intLess ex2 ex199 = .ok e ∧
      greater intLess ex2 ex199 = .ok g ∧ lessEq intLess ex2 ex199 = .ok le ∧
      greaterEq intLess ex2 ex199 = .ok ge ∧ notEqual intLess ex2 ex199 = .ok ne ∧
      less intLess ex199 ex2 = .ok l' ∧
      ((l = true ∧ e = false ∧ g = false) ∨ (l = false ∧ e = true ∧ g = false) ∨
        (l = false ∧ e = false ∧ g = true)) ∧
      (g = true ↔ l' = true) ∧ (le = true ↔ ¬ l' = true) ∧ (ge = true ↔ ¬ l = true) ∧
      (ne = true ↔ ¬ e = true) :=
  have hasym : ∀ x y, intLess x y = true → intLess y x = false := by
    intro x y h
    simp only [intLess, decide_eq_true_eq, decide_eq_false_iff_not, not_lt] at h ⊢
    omega
  ⟨hasym, by decide, by decide,
    C20_operators_consistent intLess ex2 ex199 hasym (by decide) (by decide)⟩


/-- What `PopBack` does on a non-empty array. -/
theorem PopBack_spec [RawStorage α] [Inhabited α] (a : SimpleVector α) (h0 : 0 < a.size_)
    (hm : a.size_ ≤ SIZE_MOD) : a.PopBack = .ok { a with size_ := a.size_ - 1 } := by
  have hw : wrap (a.size_ + SIZE_MOD - 1) = a.size_ - 1 := wrap_pred h0 hm
  have hlt : a.size_ - 1 < a.size_ := by omega
  simp [PopBack, hw, Resize, hlt, pure, Except.pure]

theorem bind_ok {β γ : Type} {x : Except Fault β} {f : β → Except Fault γ} {r : γ}
    (h : (x >>= f) = .ok r) : ∃ y, x = .ok y ∧ f y = .ok r := by
  cases x with
  | error e => simp [bind, Except.bind] at h
  | ok y => exact ⟨y, rfl, h⟩

theorem write_ok {p r : ArrayPtr α} {i : Nat} {v : α} (h : p.write i v = .ok r) :
    i < p.cells.length ∧ r.cells.length = p.cells.length := by
  unfold ArrayPtr.write at h
  split_ifs at h with c
  cases h
  exact ⟨c, by simp⟩

theorem copyLoop_ok (src : ArrayPtr α) :
    ∀ (n first : Nat) (dst : ArrayPtr α) (d : Nat) (r : ArrayPtr α),
      copyLoop src first dst d n = .ok r →
      r.cells.length = dst.cells.length ∧ (0 < n → d + n ≤ dst.cells.length) := by
  intro n
  induction n with
  | zero =>
    intro first dst d r h
    simp only [copyLoop] at h
    cases h
    exact ⟨rfl, fun h0 => absurd h0 (Nat.lt_irrefl 0)⟩
  | succ n ih =>
    intro first dst d r h
    simp only [copyLoop] at h
    obtain ⟨x, _, h⟩ := bind_ok h
    obtain ⟨dst', hw, h⟩ := bind_ok h
    obtain ⟨hlt, hlen⟩ := write_ok hw
    obtain ⟨h1, h2⟩ := ih (first + 1) dst' (d + 1) r h
    refine ⟨by omega, fun _ => ?_⟩
    by_cases c : 0 < n
    · have := h2 c
      omega
    · omega

theorem stdCopy_ok {src dst r : ArrayPtr α} {first last d : Nat}
    (h : stdCopy src first last dst d = .ok r) :
    first ≤ last ∧ r.cells.length = dst.cells.length ∧
      (first < last → d + (last - first) ≤ dst.cells.length) := by
  unfold stdCopy at h
  split_ifs at h with c
  obtain ⟨h1, h2⟩ := copyLoop_ok src (last - first) first dst d r h
  exact ⟨by omega, h1, fun hlt => h2 (by omega)⟩

theorem wrap_le (n : Nat) : wrap n ≤ n := Nat.mod_le n SIZE_MOD

theorem wrap_pred_le {n : Nat} (h0 : 0 < n) : wrap (n + SIZE_MOD - 1) ≤ n - 1 := by
  unfold wrap
  have e : n + SIZE_MOD - 1 = (n - 1) + SIZE_MOD := by omega
  rw [e, Nat.add_mod_right]
  exact Nat.mod_le _ _

/-- Whatever `Resize` returns has `size <= capacity`. -/
theorem Resize_keeps [RawStorage α] [Inhabited α] (a r : SimpleVector α) (n : Nat)
    (ha : a.size_ ≤ a.capacity_) (h : a.Resize n = .ok r) : r.size_ ≤ r.capacity_ := by
  unfold Resize at h
  split_ifs at h with c1 c2
  · cases h
    show n ≤ a.capacity_
    omega
  · obtain ⟨items, _, h⟩ := bind_ok h
    cases h
    show n ≤ a.capacity_
    omega
  · obtain ⟨nv, _, h⟩ := bind_ok h
    obtain ⟨nv2, _, h⟩ := bind_ok h
    cases h
    exact le_refl _

theorem PushBack_keeps [RawStorage α] [Inhabited α] (a r : SimpleVector α) (item : Ref α)
    (ha : a.size_ ≤ a.capacity_) (h : a.PushBack item = .ok r) : r.size_ ≤ r.capacity_ := by
  unfold PushBack at h
  obtain ⟨b, hb, h⟩ := bind_ok h
  obtain ⟨x, _, h⟩ := bind_ok h
  obtain ⟨items, _, h⟩ := bind_ok h
  cases h
  exact Resize_keeps a b _ ha hb

theorem PushBackMove_keeps [RawStorage α] (a r : SimpleVector α) (item : α)
    (ha : a.size_ ≤ a.capacity_) (h : a.PushBackMove item = .ok r) :
    r.size_ ≤ r.capacity_ := by
  unfold PushBackMove at h
  by_cases c : a.size_ ≠ a.capacity_
  · rw [if_pos c] at h
    obtain ⟨items, _, h⟩ := bind_ok h
    cases h
    show wrap (a.size_ + 1) ≤ a.capacity_
    have := wrap_le (a.size_ + 1)
    omega
  · rw [if_neg c] at h
    dsimp only at h
    generalize (if a.capacity_ = 0 then 1 else wrap (a.capacity_ * 2)) = K at h
    obtain ⟨nv, hcopy, h⟩ := bind_ok h
    obtain ⟨nv2, hw, h⟩ := bind_ok h
    cases h
    obtain ⟨_, hlen, _⟩ := stdCopy_ok hcopy
    obtain ⟨hlt, _⟩ := write_ok hw
    rw [hlen, alloc_length] at hlt
    show wrap (a.size_ + 1) ≤ K
    have := wrap_le (a.size_ + 1)
    omega

theorem InsertMove_keeps [RawStorage α] (a r : SimpleVector α) (p it : Nat) (v : Ref α)
    (ha : a.size_ ≤ a.capacity_) (h : a.InsertMove p v = .ok (it, r)) :
    r.size_ ≤ r.capacity_ := by
  unfold InsertMove at h
  by_cases c : a.size_ ≠ a.capacity_
  · rw [if_pos c] at h
    obtain ⟨items, _, h⟩ := bind_ok h
    obtain ⟨x, _, h⟩ := bind_ok h
    obtain ⟨items2, _, h⟩ := bind_ok h
    cases h
    show wrap (a.size_ + 1) ≤ a.capacity_
    have := wrap_le (a.size_ + 1)
    omega
  · rw [if_neg c] at h
    dsimp only at h
    generalize (if a.capacity_ = 0 then 1 else wrap (a.capacity_ * 2)) = K at h
    obtain ⟨nv, hcopy, h⟩ := bind_ok h
    obtain ⟨x, _, h⟩ := bind_ok h
    obtain ⟨nv2, hw, h⟩ := bind_ok h
    obtain ⟨nv3, hcopy2, h⟩ := bind_ok h
    cases h
    obtain ⟨_, hlen, _⟩ := stdCopy_ok hcopy
    obtain ⟨hlt, hlen2⟩ := write_ok hw
    obtain ⟨hple, _, hfit⟩ := stdCopy_ok hcopy2
    rw [hlen, alloc_length] at hlt
    rw [hlen2, hlen, alloc_length] at hfit
    show wrap (a.size_ + 1) ≤ K
    have := wrap_le (a.size_ + 1)
    by_cases c2 : p < a.size_
    · have := hfit c2
      omega
    · omega

theorem Insert_keeps [RawStorage α] (a r : SimpleVector α) (p it : Nat) (v : Ref α)
    (ha : a.size_ ≤ a.capacity_) (h : a.Insert p v = .ok (it, r)) :
    r.size_ ≤ r.capacity_ := by
  by_cases hp : p < a.size_
  · rw [Insert_eq_InsertMove a p v hp] at h
    exact InsertMove_keeps a r p it v ha h
  · rw [Insert_assert a p v (by omega)] at h
    cases h

theorem Erase_keeps (a r : SimpleVector α) (p it : Nat)
    (ha : a.size_ ≤ a.capacity_) (h : a.Erase p = .ok (it, r)) : r.size_ ≤ r.capacity_ := by
  unfold Erase at h
  split_ifs at h with c
  obtain ⟨items, _, h⟩ := bind_ok h
  cases h
  have hp : p < a.size_ := by simpa using c
  show wrap (a.size_ + SIZE_MOD - 1) ≤ a.capacity_
  have := wrap_pred_le (n := a.size_) (by omega)
  omega

theorem sized_ok [RawStorage α] [Inhabited α] (n : Nat) (s : SimpleVector α)
    (h : sized n = .ok s) : s.size_ = n ∧ s.capacity_ = n := by
  obtain ⟨s', hs', h1, h2, _⟩ := sized_spec (α := α) n
  rw [hs'] at h
  cases h
  exact ⟨h1, h2⟩

theorem Reserve_keeps [RawStorage α] [Inhabited α] (a r : SimpleVector α) (n : Nat)
    (ha : a.size_ ≤ a.capacity_) (h : a.Reserve n = .ok r) : r.size_ ≤ r.capacity_ := by
  unfold Reserve at h
  split_ifs at h with c
  · obtain ⟨s, hs, h⟩ := bind_ok h
    obtain ⟨items, _, h⟩ := bind_ok h
    cases h
    obtain ⟨_, hc⟩ := sized_ok n s hs
    show a.size_ ≤ s.capacity_
    omega
  · cases h
    exact ha

theorem copy_keeps [RawStorage α] [Inhabited α] (a r : SimpleVector α)
    (ha : a.size_ ≤ a.capacity_) (h : copy a = .ok r) : r.size_ ≤ r.capacity_ := by
  unfold copy at h
  obtain ⟨s, hs, h⟩ := bind_ok h
  obtain ⟨items, _, h⟩ := bind_ok h
  cases h
  obtain ⟨hsz, _⟩ := sized_ok _ s hs
  show s.size_ ≤ a.capacity_
  rw [hsz]
  exact ha

/-- C16: `size <= capacity` is kept by every step.  Every constructor yields it.
Every mutating operation, called on arrays `a`, `b` about which nothing but
`size <= capacity` is assumed, with any argument, leaves each array it touches
with `size <= capacity` whenever it returns; the arrays the operations return
can therefore be fed to the next operation.  On arrays that satisfy the
data-model invariant (`e`, any such array with a position `q <= size`; `d`, one
with an element at offset `p`) the operations do return. -/
theorem C16_size_le_capacity [RawStorage α] [Inhabited α] (a b d e : SimpleVector α)
    (n p q k : Nat) (x : α) (t u w : Ref α) (L : List α)
    (ha : a.size_ ≤ a.capacity_) (hb : b.size_ ≤ b.capacity_)
    (hve : e.Valid) (hbe : e.Bounded) (hq : q ≤ e.size_) (hue : e.Designates u)
    (hvd : d.Valid) (hbd : d.Bounded) (hp : p < d.size_) (hwd : d.Designates w) :
    -- the constructors
    (empty : SimpleVector α).size_ ≤ (empty : SimpleVector α).capacity_ ∧
    (∃ r, (sized n : Except Fault (SimpleVector α)) = .ok r ∧ r.size_ ≤ r.capacity_) ∧
    (∃ r, (filled n x : Except Fault (SimpleVector α)) = .ok r ∧ r.size_ ≤ r.capacity_) ∧
    (∃ r, (initList L : Except Fault (SimpleVector α)) = .ok r ∧
      r.size_ ≤ r.capacity_) ∧
    (∀ r, copy a = .ok r → r.size_ ≤ r.capacity_) ∧
    ((moveConstruct a).1.size_ ≤ (moveConstruct a).1.capacity_ ∧
      (moveConstruct a).2.size_ ≤ (moveConstruct a).2.capacity_) ∧
    (reserved (SV.Reserve n) : SimpleVector α).size_ ≤
      (reserved (SV.Reserve n) : SimpleVector α).capacity_ ∧
    -- the mutating operations keep `size <= capacity`
    (∀ r, a.Clear = .ok r → r.size_ ≤ r.capacity_) ∧
    (∀ r, a.Resize n = .ok r → r.size_ ≤ r.capacity_) ∧
    (∀ r, a.Reserve n = .ok r → r.size_ ≤ r.capacity_) ∧
    (∀ r, a.PushBack t = .ok r → r.size_ ≤ r.capacity_) ∧
    (∀ r, a.PushBackMove x = .ok r → r.size_ ≤ r.capacity_) ∧
    (∀ it r, a.Insert k t = .ok (it, r) → r.size_ ≤ r.capacity_) ∧
    (∀ it r, a.InsertMove k t = .ok (it, r) → r.size_ ≤ r.capacity_) ∧
    (∀ r, a.PopBack = .ok r → r.size_ ≤ r.capacity_) ∧
    (∀ it r, a.Erase k = .ok (it, r) → r.size_ ≤ r.capacity_) ∧
    ((swap a b).1.size_ ≤ (swap a b).1.capacity_ ∧
      (swap a b).2.size_ ≤ (swap a b).2.capacity_) ∧
    (∀ r, copyAssign b a = .ok r → r.size_ ≤ r.capacity_) ∧
    (copyAssignSelf a).size_ ≤ (copyAssignSelf a).capacity_ ∧
    ((moveAssign b a).1.size_ ≤ (moveAssign b a).1.capacity_ ∧
      (moveAssign b a).2.size_ ≤ (moveAssign b a).2.capacity_) ∧
    -- on arrays of the data model the operations return
    (∃ r, copy e = .ok r) ∧ (∃ r, copyAssign b e = .ok r) ∧
    (∃ r, e.Clear = .ok r) ∧ (∃ r, e.Resize n = .ok r) ∧
    (∃ r, e.Reserve n = .ok r) ∧ (∃ r, e.PushBack (.ext x) = .ok r) ∧
    (∃ r, e.PushBackMove x = .ok r) ∧ (∃ r, e.InsertMove q u = .ok (q, r)) ∧
    (∃ r, d.Insert p w = .ok (p, r)) ∧ (∃ r, d.PopBack = .ok r) ∧
    (∃ r, d.Erase p = .ok (p, r)) := by
  have hea : e.size_ ≤ e.allocated := le_trans hve.1 hve.2
  have hda : d.size_ ≤ d.allocated := le_trans hvd.1 hvd.2
  have hd1 := hvd.1
  have hbd' : d.capacity_ * 2 < SIZE_MOD := hbd
  refine ⟨le_refl _, ?_, ?_, ?_, fun r h => copy_keeps a r ha h, ⟨ha, le_refl _⟩,
    Nat.zero_le _, fun r h => Resize_keeps a r 0 ha h, fun r h => Resize_keeps a r n ha h,
    fun r h => Reserve_keeps a r n ha h, fun r h => PushBack_keeps a r t ha h,
    fun r h => PushBackMove_keeps a r x ha h, fun it r h => Insert_keeps a r k it t ha h,
    fun it r h => InsertMove_keeps a r k it t ha h, fun r h => Resize_keeps a r _ ha h,
    fun it r h => Erase_keeps a r k it ha h, ⟨hb, ha⟩, ?_, ha, ⟨ha, ha⟩,
    ?_, ?_, ?_, ?_, ?_, ?_, ?_, ?_, ?_, ?_, ?_⟩
  · obtain ⟨r, hr, hs, hc, _⟩ := sized_spec (α := α) n
    exact ⟨r, hr, by omega⟩
  · obtain ⟨r, hr, hs, hc, _⟩ := filled_spec (α := α) n x
    exact ⟨r, hr, by omega⟩
  · obtain ⟨r, hr, hs, hc, _⟩ := initList_spec (α := α) L
    exact ⟨r, hr, by omega⟩
  · intro r h
    unfold copyAssign at h
    obtain ⟨c, hc, h⟩ := bind_ok h
    cases h
    exact copy_keeps a c ha hc
  · obtain ⟨r, hr, _⟩ := copy_spec e hea
    exact ⟨r, hr⟩
  · obtain ⟨r, hr, _⟩ := copy_spec e hea
    exact ⟨(swap b r).1, by simp [copyAssign, hr, bind, Except.bind, pure, Except.pure]⟩
  · obtain ⟨r, hr, _⟩ := Clear_spec e
    exact ⟨r, hr⟩
  · obtain ⟨r, hr, _⟩ := Resize_spec e n hve
    exact ⟨r, hr⟩
  · by_cases hn : e.capacity_ < n
    · obtain ⟨r, hr, _⟩ := Reserve_grow_spec e n hve hn
      exact ⟨r, hr⟩
    · exact ⟨e, by simp [Reserve, hn, pure, Except.pure]⟩
  · obtain ⟨r, hr, _⟩ := PushBack_spec e x hve hbe
    exact ⟨r, hr⟩
  · obtain ⟨r, hr, _⟩ := PushBackMove_spec e x hve hbe
    exact ⟨r, hr⟩
  · obtain ⟨r, _, hr, _⟩ := InsertMove_spec e q u hve hbe hq hue
    exact ⟨r, hr⟩
  · obtain ⟨r, _, hr, _⟩ := InsertMove_spec d p w hvd hbd (le_of_lt hp) hwd
    exact ⟨r, by rw [Insert_eq_InsertMove d p w hp]; exact hr⟩
  · exact ⟨_, PopBack_spec d (by omega) (by omega)⟩
  · obtain ⟨r, hr, _⟩ := Erase_spec d p hp hda (by omega)
    exact ⟨r, hr⟩

/-- Instance of C16 for `int`: `a` is the copy of the array built by
`SimpleVector<int> a(Reserve(2)); a.PushBack(1);`, which reports capacity 2 and
owns one slot; `b` is `{1, 2, 3, 4}`, `e` the empty array and `d` is `{1, 2}`
with capacity 3. -/
theorem C16_size_le_capacity_witness :
    exCopied.size_ ≤ exCopied.capacity_ ∧ ex1234.size_ ≤ ex1234.capacity_ ∧
    (empty : SimpleVector Int).Valid ∧ (empty : SimpleVector Int).Bounded ∧
    0 ≤ (empty : SimpleVector Int).size_ ∧ (empty : SimpleVector Int).Designates (.ext 7) ∧
    ex12spare.Valid ∧ ex12spare.Bounded ∧ 0 < ex12spare.size_ ∧
    ex12spare.Designates (.slot 1) ∧
    (empty : SimpleVector Int).size_ ≤ (empty : SimpleVector Int).capacity_ ∧
    (∃ r, (sized 5 : Except Fault (SimpleVector Int)) = .ok r ∧ r.size_ ≤ r.capacity_) ∧
    (∃ r, (filled 5 7 : Except Fault (SimpleVector Int)) = .ok r ∧ r.size_ ≤ r.capacity_) ∧
    (∃ r, (initList [1, 2, 3] : Except Fault (SimpleVector Int)) = .ok r ∧
      r.size_ ≤ r.capacity_) ∧
    (∀ r, copy exCopied = .ok r → r.size_ ≤ r.capacity_) ∧
    ((moveConstruct exCopied).1.size_ ≤ (moveConstruct exCopied).1.capacity_ ∧
      (moveConstruct exCopied).2.size_ ≤ (moveConstruct exCopied).2.capacity_) ∧
    (reserved (SV.Reserve 5) : SimpleVector Int).size_ ≤
      (reserved (SV.Reserve 5) : SimpleVector Int).capacity_ ∧
    (∀ r, exCopied.Clear = .ok r → r.size_ ≤ r.capacity_) ∧
    (∀ r, exCopied.Resize 5 = .ok r → r.size_ ≤ r.capacity_) ∧
    (∀ r, exCopied.Reserve 5 = .ok r → r.size_ ≤ r.capacity_) ∧
    (∀ r, exCopied.PushBack (.slot 0) = .ok r → r.size_ ≤ r.capacity_) ∧
    (∀ r, exCopied.PushBackMove 7 = .ok r → r.size_ ≤ r.capacity_) ∧
    (∀ it r, exCopied.Insert 1 (.slot 0) = .ok (it, r) → r.size_ ≤ r.capacity_) ∧
    (∀ it r, exCopied.InsertMove 1 (.slot 0) = .ok (it, r) → r.size_ ≤ r.capacity_) ∧
    (∀ r, exCopied.PopBack = .ok r → r.size_ ≤ r.capacity_) ∧
    (∀ it r, exCopied.Erase 1 = .ok (it, r) → r.size_ ≤ r.capacity_) ∧
    ((swap exCopied ex1234).1.size_ ≤ (swap exCopied ex1234).1.capacity_ ∧
      (swap exCopied ex1234).2.size_ ≤ (swap exCopied ex1234).2.capacity_) ∧
    (∀ r, copyAssign ex1234 exCopied = .ok r → r.size_ ≤ r.capacity_) ∧
    (copyAssignSelf exCopied).size_ ≤ (copyAssignSelf exCopied).capacity_ ∧
    ((moveAssign ex1234 exCopied).1.size_ ≤ (moveAssign ex1234 exCopied).1.capacity_ ∧
      (moveAssign ex1234 exCopied).2.size_ ≤ (moveAssign ex1234 exCopied).2.capacity_) ∧
    (∃ r, copy (empty : SimpleVector Int) = .ok r) ∧ (∃ r, copyAssign ex1234 (empty : SimpleVector Int) = .ok r) ∧
    (∃ r, (empty : SimpleVector Int).Clear = .ok r) ∧ (∃ r, (empty : SimpleVector Int).Resize 5 = .ok r) ∧
    (∃ r, (empty : SimpleVector Int).Reserve 5 = .ok r) ∧ (∃ r, (empty : SimpleVector Int).PushBack (.ext 7) = .ok r) ∧
    (∃ r, (empty : SimpleVector Int).PushBackMove 7 = .ok r) ∧ (∃ r, (empty : SimpleVector Int).InsertMove 0 (.ext 7) = .ok (0, r)) ∧
    (∃ r, ex12spare.Insert 0 (.slot 1) = .ok (0, r)) ∧ (∃ r, ex12spare.PopBack = .ok r) ∧
    (∃ r, ex12spare.Erase 0 = .ok (0, r)) :=
  ⟨by decide, by decide, by decide, by decide, by decide, by decide, by decide, by decide,
    by decide, by decide,
    C16_size_le_capacity exCopied ex1234 ex12spare (empty : SimpleVector Int) 5 0 0 1 7
      (.slot 0) (.ext 7) (.slot 1) [1, 2, 3] (by decide) (by decide) (by decide) (by decide)
      (by decide) (by decide) (by decide) (by decide) (by decide) (by decide)⟩

/-- Starting from a full array, every call of the copy overload of `PushBack`
changes the capacity. -/
theorem pushAll_copy_count [RawStorage α] [Inhabited α] :
    ∀ (xs : List α) (a : SimpleVector α), a.Valid → a.size_ = a.capacity_ →
      (a.capacity_ + xs.length) * 2 < SIZE_MOD →
      ∃ c, pushAll (fun v x => v.PushBack (.ext x)) a xs = .ok (c, xs.length) ∧
        c.size_ = a.size_ + xs.length := by
  intro xs
  induction xs with
  | nil => intro a _ _ _; exact ⟨a, rfl, rfl⟩
  | cons x xs ih =>
    intro a hv hfull hbound
    simp only [List.length_cons] at hbound
    obtain ⟨b, hb, hs, hc, hal, _⟩ := PushBack_spec a x hv (by unfold Bounded; omega)
    have hnl : ¬ a.size_ + 1 < a.capacity_ := by omega
    rw [if_neg hnl] at hc
    have hvb : b.Valid := ⟨by omega, hal⟩
    obtain ⟨c, hrun, hcs⟩ := ih b hvb (by omega) (by omega)
    refine ⟨c, ?_, by simp only [List.length_cons]; omega⟩
    have hne : b.capacity_ ≠ a.capacity_ := by omega
    simp only [pushAll, hb, hrun, bind, Except.bind, pure, Except.pure, hne, ne_eq,
      not_false_eq_true, if_true, List.length_cons]
    congr 2
    omega

/-- Starting from an array with a buffer, `k` calls of the move overload of
`PushBack` change the capacity, each doubling it; unless `k = 0` the final
capacity is below twice the final size. -/
theorem pushAll_move_count [RawStorage α] :
    ∀ (xs : List α) (a : SimpleVector α), a.Valid → 0 < a.capacity_ →
      a.capacity_ * 2 < SIZE_MOD → (a.size_ + xs.length) * 4 < SIZE_MOD →
      ∃ c k, pushAll PushBackMove a xs = .ok (c, k) ∧ c.size_ = a.size_ + xs.length ∧
        c.capacity_ = a.capacity_ * 2 ^ k ∧ (k = 0 ∨ c.capacity_ < 2 * c.size_) := by
  intro xs
  induction xs with
  | nil => intro a _ _ _ _; exact ⟨a, 0, rfl, rfl, by simp, Or.inl rfl⟩
  | cons x xs ih =>
    intro a hv hpos hb1 hb2
    simp only [List.length_cons] at hb2
    obtain ⟨b, hb, hs, hc, hal, _⟩ := PushBackMove_spec a x hv hb1
    have h1 := hv.1
    by_cases hfull : a.size_ < a.capacity_
    · rw [if_pos hfull] at hc
      have hvb : b.Valid := ⟨by omega, hal⟩
      obtain ⟨c, k, hrun, hcs, hcc, hk⟩ := ih b hvb (by omega) (by omega) (by omega)
      refine ⟨c, k, ?_, by simp only [List.length_cons]; omega, by rw [hcc, hc], hk⟩
      have he : ¬ b.capacity_ ≠ a.capacity_ := by simp [hc]
      simp only [pushAll, hb, hrun, bind, Except.bind, pure, Except.pure, he, if_false,
        Nat.zero_add]
    · rw [if_neg hfull] at hc
      have hmax : max 1 (a.capacity_ * 2) = a.capacity_ * 2 := by omega
      rw [hmax] at hc
      have hvb : b.Valid := ⟨by omega, hal⟩
      obtain ⟨c, k, hrun, hcs, hcc, hk⟩ := ih b hvb (by omega) (by omega) (by omega)
      refine ⟨c, 1 + k, ?_, by simp only [List.length_cons]; omega, ?_, Or.inr ?_⟩
      · have hne : b.capacity_ ≠ a.capacity_ := by omega
        simp only [pushAll, hb, hrun, bind, Except.bind, pure, Except.pure, hne, ne_eq,
          not_false_eq_true, if_true]
      · rw [hcc, hc, pow_add, pow_one]
        ring
      · rcases hk with hk0 | hk1
        · subst hk0
          rw [hcc, hc, pow_zero]
          omega
        · exact hk1


theorem empty_valid : (empty : SimpleVector α).Valid := by
  simp [Valid, empty, allocated, ArrayPtr.null]

/-- C17: `N` consecutive calls of the copy overload of `PushBack` on an empty
array change the capacity `N` times, once per call, so the number of
reallocations is linear in `N` and not bounded by `c * (log2(N) + 1)`; the same
calls of the move overload change it at most `2 * (log2(N) + 1)` times. -/
theorem C17_PushBack_copy_reallocates_every_call [RawStorage α] [Inhabited α] (xs : List α)
    (hne : xs ≠ []) (hb : xs.length * 4 < SIZE_MOD) :
    (∃ c, pushAll (fun v x => v.PushBack (.ext x)) (empty : SimpleVector α) xs =
      .ok (c, xs.length)) ∧
    (∃ c k, pushAll PushBackMove (empty : SimpleVector α) xs = .ok (c, k) ∧
      k ≤ 2 * (Nat.log 2 xs.length + 1)) := by
  constructor
  · obtain ⟨c, h, _⟩ := pushAll_copy_count xs (empty : SimpleVector α) empty_valid rfl
      (by show (0 + xs.length) * 2 < SIZE_MOD; omega)
    exact ⟨c, h⟩
  · cases xs with
    | nil => exact absurd rfl hne
    | cons x xs =>
      simp only [List.length_cons] at hb ⊢
      have hm := one_lt_SIZE_MOD
      obtain ⟨b, hpush, hs, hc, hal, _⟩ := PushBackMove_spec (empty : SimpleVector α) x
        empty_valid (by show 0 * 2 < SIZE_MOD; omega)
      have hs' : b.size_ = 1 := hs
      have hc' : b.capacity_ = 1 := by
        rw [hc]; rfl
      have hvb : b.Valid := ⟨by omega, hal⟩
      obtain ⟨c, k, hrun, hcs, hcc, hk⟩ := pushAll_move_count xs b hvb (by omega) (by omega)
        (by omega)
      refine ⟨c, 1 + k, ?_, ?_⟩
      · have hne' : b.capacity_ ≠ (empty : SimpleVector α).capacity_ := by
          rw [hc']; exact Nat.one_ne_zero
        simp only [pushAll, hpush, hrun, bind, Except.bind, pure, Except.pure, hne', ne_eq,
          not_false_eq_true, if_true]
      · have hpow : 2 ^ k ≤ (xs.length + 1) * 2 := by
          rcases hk with hk0 | hk1
          · subst hk0
            simp only [pow_zero]
            omega
          · rw [hcc, hc', Nat.one_mul] at hk1
            omega
        have hlog := Nat.le_log_of_pow_le (by norm_num : 1 < 2) hpow
        rw [Nat.log_mul_base (by norm_num) (by omega)] at hlog
        omega

/-- Instance of C17 for `int`: eight appends to the empty array. -/
theorem C17_PushBack_copy_reallocates_every_call_witness :
    ([1, 2, 3, 4, 5, 6, 7, 8] : List Int) ≠ [] ∧
    ([1, 2, 3, 4, 5, 6, 7, 8] : List Int).length * 4 < SIZE_MOD ∧
    (∃ c, pushAll (fun v x => v.PushBack (.ext x)) (empty : SimpleVector Int)
        [1, 2, 3, 4, 5, 6, 7, 8] =
      .ok (c, ([1, 2, 3, 4, 5, 6, 7, 8] : List Int).length)) ∧
    (∃ c k, pushAll PushBackMove (empty : SimpleVector Int) [1, 2, 3, 4, 5, 6, 7, 8] =
      .ok (c, k) ∧ k ≤ 2 * (Nat.log 2 ([1, 2, 3, 4, 5, 6, 7, 8] : List Int).length + 1)) :=
  ⟨by decide, by decide,
    C17_PushBack_copy_reallocates_every_call [1, 2, 3, 4, 5, 6, 7, 8] (by decide) (by decide)⟩

/-- Eight appends to the empty array: the copy overload ends with capacity 8
after 8 capacity changes, the move overload with capacity 8 after 4. -/
theorem pushAll_eight :
    pushAll (fun v x => v.PushBack (.ext x)) (empty : SimpleVector Int) [1, 2, 3, 4, 5, 6, 7, 8] =
      .ok (⟨⟨[1, 2, 3, 4, 5, 6, 7, 8]⟩, 8, 8⟩, 8) ∧
    pushAll PushBackMove (empty : SimpleVector Int) [1, 2, 3, 4, 5, 6, 7, 8] =
      .ok (⟨⟨[1, 2, 3, 4, 5, 6, 7, 8]⟩, 8, 8⟩, 4) :=
  ⟨rfl, rfl⟩

end SimpleVector
end SV
